import Mathlib

/-!
Shallow embedding of `src/index.py` (quantum-barternets): a barter network
held as a networkx undirected graph, the max-cut QUBO construction
`TradeNetworkSolver.build_qubo`, the configuration loader `load_config`,
and the reporting part of `main`.

The graph mirrors networkx state: `nodes` is the node dict's key list in
insertion order, `edges` the set of undirected edges, each stored once with
the endpoint orientation of its first insertion and its current weight.
The QUBO is a Python dict modelled as an association list in insertion
order: updating an existing key rewrites it in place, a new key is appended.
-/

set_option linter.unusedSectionVars false

namespace QBarter

/-- Graph state of `TradeNetworkSolver.G` (a `networkx.Graph`): node list in
insertion order, and one stored record per undirected edge `(u, v, weight)`. -/
structure BGraph (α : Type) where
  nodes : List α
  edges : List (α × α × Int)
deriving DecidableEq, Repr

/-- The state of a freshly constructed solver: `nx.Graph()` is empty. -/
def emptyGraph {α : Type} : BGraph α := ⟨[], []⟩

variable {α : Type} [LinearOrder α]

/-- Does stored edge record `e` connect the unordered pair `{i, j}`? -/
def matchesPair (i j : α) (e : α × α × Int) : Bool :=
  decide ((e.1 = i ∧ e.2.1 = j) ∨ (e.1 = j ∧ e.2.1 = i))

/-- networkx `add_edge` inserts each endpoint into the node dict if absent
(`u` first, then `v`). -/
def addNode (x : α) (ns : List α) : List α :=
  if x ∈ ns then ns else ns ++ [x]

/-- networkx `G.add_edge(a, b, weight=w)`: both endpoints are added as
nodes; if the unordered pair already has an edge its weight is overwritten,
otherwise a new edge record is appended. -/
def addEdge (a b : α) (w : Int) (g : BGraph α) : BGraph α :=
  { nodes := addNode b (addNode a g.nodes)
    edges :=
      if g.edges.any (matchesPair a b) then
        g.edges.map (fun e => if matchesPair a b e then (e.1, e.2.1, w) else e)
      else
        g.edges ++ [(a, b, w)] }

/-- `TradeNetworkSolver.add_trade_desire(owner_has, owner_wants)`:
`self.G.add_edge(owner_has, owner_wants, weight=1)`. -/
def addTradeDesire (a b : α) (g : BGraph α) : BGraph α :=
  addEdge a b 1 g

/-- The neighbor list read off an edge list (helper for `neighbors`). -/
def nbrL (L : List (α × α × Int)) (i : α) : List α :=
  L.filterMap (fun e =>
    if e.1 = i then some e.2.1 else if e.2.1 = i then some e.1 else none)

/-- The weight lookup read off an edge list (helper for `edgeWeight`). -/
def wtL (L : List (α × α × Int)) (i j : α) : Int :=
  match L.find? (matchesPair i j) with
  | some e => e.2.2
  | none => 0

/-- `self.G.neighbors(i)`: the other endpoint of every edge incident to `i`,
in edge insertion order; a self-loop contributes `i` itself once. -/
def neighbors (g : BGraph α) (i : α) : List α :=
  nbrL g.edges i

/-- `self.G[i][j]['weight']`: the weight of the stored edge on the unordered
pair `{i, j}` (the call sites only use it when such an edge exists). -/
def edgeWeight (g : BGraph α) (i j : α) : Int :=
  wtL g.edges i j

/-- A Python dict keyed by node pairs, as built by `build_qubo`. -/
abbrev Qubo (α : Type) := List ((α × α) × Int)

/-- Python dict lookup `Q[k]` (as a partial mapping). -/
def dlookup (Q : Qubo α) (k : α × α) : Option Int :=
  (Q.find? (fun e => e.1 = k)).map (fun e => e.2)

/-- Python dict update `Q[k] = v`: rewrite the entry in place if the key is
present, else append a new entry. -/
def dinsert (Q : Qubo α) (k : α × α) (v : Int) : Qubo α :=
  match Q with
  | [] => [(k, v)]
  | e :: Q => if e.1 = k then (k, v) :: Q else e :: dinsert Q k v

/-- Line 44: `Q = {(i, i): 0 for i in self.G.nodes}`. -/
def qInit (ns : List α) : Qubo α :=
  ns.map (fun i => ((i, i), (0 : Int)))

/-- Line 47's value: `-sum(self.G[i][j]['weight'] for j in self.G.neighbors(i))`. -/
def diagVal (g : BGraph α) (i : α) : Int :=
  - ((neighbors g i).map (fun j => edgeWeight g i j)).sum

/-- One iteration of the outer loop of `build_qubo` (lines 46-51): set the
diagonal entry for `i`, then emit `Q[(i, j)] = 2 * w` for each neighbor
`j` with `i < j`. -/
def processNode (g : BGraph α) (Q : Qubo α) (i : α) : Qubo α :=
  (neighbors g i).foldl
    (fun Q j => if i < j then dinsert Q (i, j) (2 * edgeWeight g i j) else Q)
    (dinsert Q (i, i) (diagVal g i))

/-- `TradeNetworkSolver.build_qubo` (lines 38-53). -/
def buildQubo (g : BGraph α) : Qubo α :=
  g.nodes.foldl (processNode g) (qInit g.nodes)

/-- `build_qubo` as a state-passing method call on the solver: it only reads
`self.G` (lines 44-53 contain no write to `self.G`), so the graph component
of the post-state is the pre-state graph. -/
def buildQuboS (g : BGraph α) : Qubo α × BGraph α :=
  (buildQubo g, g)

/-- Sum of the weights of the edges incident to `i` (a self-loop stored once
is counted once, as in the code's neighbor iteration). -/
def incidentWeightSum (g : BGraph α) (i : α) : Int :=
  ((g.edges.filter (fun e => decide (e.1 = i ∨ e.2.1 = i))).map
    (fun e => e.2.2)).sum

/-- Total weight of all edges of the graph. -/
def totalWeight (g : BGraph α) : Int :=
  (g.edges.map (fun e => e.2.2)).sum

/-- Is there an edge on the unordered pair `{a, b}`? -/
def hasEdge (g : BGraph α) (a b : α) : Bool :=
  g.edges.any (matchesPair a b)

/-- The graph has no self-loop. -/
def selfLoopFree (g : BGraph α) : Prop :=
  ∀ e ∈ g.edges, e.1 ≠ e.2.1

/-- Well-formedness of the embedded networkx state: node keys are distinct,
each unordered pair carries at most one edge record, and edge endpoints are
nodes. Every state the program reaches satisfies it. -/
def WF (g : BGraph α) : Prop :=
  g.nodes.Nodup ∧
  g.edges.Pairwise (fun e1 e2 => matchesPair e1.1 e1.2.1 e2 = false) ∧
  ∀ e ∈ g.edges, e.1 ∈ g.nodes ∧ e.2.1 ∈ g.nodes

/-- Replay a list of `add_trade_desire` calls. -/
def applyTrades (ts : List (α × α)) (g : BGraph α) : BGraph α :=
  ts.foldl (fun g t => addTradeDesire t.1 t.2 g) g

/-- Graph states reachable from the fresh solver by `add_trade_desire`. -/
def Reachable (g : BGraph α) : Prop :=
  ∃ ts : List (α × α), g = applyTrades ts emptyGraph

/-- `load_config`'s view of the environment after `load_dotenv()`. -/
structure Config where
  token : String
  endpoint : String
  solver : String
deriving DecidableEq, Repr

/-- `os.getenv(k, d)`. -/
def getenvD (env : String → Option String) (k d : String) : String :=
  (env k).getD d

/-- `load_config` (lines 9-21); `if not dwave_token` treats an absent and an
empty token alike. -/
def loadConfig (env : String → Option String) : Except String Config :=
  match env "DWAVE_TOKEN" with
  | none => Except.error "DWAVE_TOKEN not found in .env file"
  | some t =>
    if t = "" then Except.error "DWAVE_TOKEN not found in .env file"
    else Except.ok
      { token := t
        endpoint := getenvD env "DWAVE_ENDPOINT" "https://cloud.dwavesys.com/sapi"
        solver := getenvD env "DWAVE_SOLVER" "Advantage_system4.1" }

/-- Lines 112-116 of `main`: the printed report. One list element per
`print` call; `energyText` is the interpolated text of the float `energy`,
passed through verbatim. -/
def renderReport (sol : List (String × Int)) (energyText : String) : List String :=
  ["\nSolution found:", "--------------"]
    ++ sol.map (fun p => p.1 ++ ": " ++ (if p.2 = 1 then "Trade" else "Keep"))
    ++ ["\nSolution energy: " ++ energyText]

/-- Outcome of one run of `main`: either the `ValueError` handler fired
before any graph work (line 122-123), or the run completed with a final
graph state and printed report. -/
inductive RunResult (α : Type) where
  | configError (printed : List String)
  | completed (g : BGraph α) (printed : List String)
deriving Repr

/-- The `example_trades` list of `main` (lines 98-103). -/
def exampleTrades : List (String × String) :=
  [("Alice_Bike", "Bob_Laptop"),
   ("Bob_Laptop", "Charlie_Guitar"),
   ("Charlie_Guitar", "David_Camera"),
   ("David_Camera", "Alice_Bike")]

/-- `main` (lines 89-125), with the remote annealing call abstracted as
`solve : Qubo -> (best sample, energy text)`. A failing `load_config`
raises `ValueError`, caught at line 122 before any graph is built. -/
def runMain (env : String → Option String)
    (solve : Qubo String → List (String × Int) × String) : RunResult String :=
  match loadConfig env with
  | Except.error e => RunResult.configError ["Configuration error: " ++ e]
  | Except.ok _ =>
    let g := applyTrades exampleTrades emptyGraph
    let Q := buildQubo g
    let r := solve Q
    RunResult.completed g
      (renderReport r.1 r.2 ++ ["\nVisualization saved as 'trade_network_solution.png'"])

/-- The message of the raised `ValueError` mentions the missing variable. -/
def mentionsToken (s : String) : Prop :=
  ∃ l r : List Char, s.toList = l ++ "DWAVE_TOKEN".toList ++ r

/-! Helper definitions used only by the proofs. -/

/-- The key list of a dict. -/
def dkeys (Q : Qubo α) : List (α × α) :=
  Q.map (fun e => e.1)

/-- The value list of a dict; its sum is the sum of all QUBO coefficients. -/
def dvals (Q : Qubo α) : List Int :=
  Q.map (fun e => e.2)

/-- Remove the first entry with key `k` from a dict. -/
def derase (Q : Qubo α) (k : α × α) : Qubo α :=
  match Q with
  | [] => []
  | e :: Q => if e.1 = k then Q else e :: derase Q k

/-- The off-diagonal entries that the inner loop of `build_qubo` emits while
visiting node `i` (helper for the coefficient-sum argument). -/
def offList (g : BGraph α) (i : α) : Qubo α :=
  (neighbors g i).filterMap
    (fun j => if i < j then some ((i, j), 2 * edgeWeight g i j) else none)

/-- A reorganized presentation of the QUBO dict — the diagonal block followed
by all off-diagonal entries — proven below to agree with `buildQubo` as a
mapping; used to compute the sum of all coefficients. -/
def quboAlt (g : BGraph α) : Qubo α :=
  g.nodes.map (fun i => ((i, i), diagVal g i)) ++ g.nodes.flatMap (offList g)

/-- Edge-list form of `incidentWeightSum` (helper for inductions). -/
def iwsL (L : List (α × α × Int)) (i : α) : Int :=
  ((L.filter (fun e => decide (e.1 = i ∨ e.2.1 = i))).map (fun e => e.2.2)).sum

instance decWF (g : BGraph α) : Decidable (WF g) := by
  unfold WF
  infer_instance

instance decSLF (g : BGraph α) : Decidable (selfLoopFree g) := by
  unfold selfLoopFree
  infer_instance

/-- The spec's end-to-end 4-cycle scenario, with the identifiers A, B, C, D
modelled as the characters A-D (their order agrees with the lexicographic
order of the corresponding one-letter strings). -/
def gCycle : BGraph Char :=
  applyTrades [('A', 'B'), ('B', 'C'), ('C', 'D'), ('D', 'A')] emptyGraph

/-- A small concrete state used as a witness input: one trade desire 0 -> 1. -/
def gPair : BGraph Nat :=
  applyTrades [(0, 1)] emptyGraph

/-! ### Basic facts about `matchesPair` -/

theorem matchesPair_iff {i j : α} {e : α × α × Int} :
    matchesPair i j e = true ↔ (e.1 = i ∧ e.2.1 = j) ∨ (e.1 = j ∧ e.2.1 = i) := by
  simp [matchesPair]

theorem matchesPair_comm (a b : α) (e : α × α × Int) :
    matchesPair a b e = matchesPair b a e := by
  apply decide_eq_decide.mpr
  tauto

theorem matchesPair_swapEdge (i j a b : α) (w v : Int) :
    matchesPair i j (a, b, w) = matchesPair i j (b, a, v) := by
  apply decide_eq_decide.mpr
  simp only [matchesPair]
  tauto

theorem matchesPair_reweight (i j : α) (e : α × α × Int) (w : Int) :
    matchesPair i j (e.1, e.2.1, w) = matchesPair i j e :=
  rfl

theorem matchesPair_trans {i j : α} {e1 e2 : α × α × Int}
    (h1 : matchesPair i j e1 = true) (h2 : matchesPair i j e2 = true) :
    matchesPair e1.1 e1.2.1 e2 = true := by
  rw [matchesPair_iff] at h1 h2 ⊢
  rcases h1 with ⟨ha, hb⟩ | ⟨ha, hb⟩ <;> rcases h2 with ⟨hc, hd⟩ | ⟨hc, hd⟩ <;>
    subst_vars <;> tauto

/-! ### Dict (association list) lemmas -/

theorem dlookup_nil (k : α × α) : dlookup ([] : Qubo α) k = none := rfl

theorem dlookup_cons (e : (α × α) × Int) (Q : Qubo α) (k : α × α) :
    dlookup (e :: Q) k = if e.1 = k then some e.2 else dlookup Q k := by
  by_cases h : e.1 = k <;> simp [dlookup, List.find?, h]

theorem dlookup_dinsert (Q : Qubo α) (k p : α × α) (v : Int) :
    dlookup (dinsert Q k v) p = if p = k then some v else dlookup Q p := by
  induction Q with
  | nil =>
    by_cases h : p = k
    · simp [dinsert, dlookup_cons, h]
    · have h2 : ¬ k = p := fun hh => h hh.symm
      simp [dinsert, dlookup_cons, dlookup_nil, h, h2]
  | cons e Q ih =>
    simp only [dinsert]
    by_cases hek : e.1 = k
    · by_cases hpk : p = k
      · simp [hek, hpk, dlookup_cons]
      · have hkp : ¬ k = p := fun h => hpk h.symm
        simp [hek, hpk, hkp, dlookup_cons]
    · by_cases hpe : e.1 = p
      · have hpk : ¬ p = k := fun h => hek (hpe.trans h)
        simp [hek, hpe, hpk, dlookup_cons]
      · simp [hek, hpe, dlookup_cons, ih]

theorem dkeys_cons (e : (α × α) × Int) (Q : Qubo α) :
    dkeys (e :: Q) = e.1 :: dkeys Q :=
  rfl

theorem dkeys_dinsert (Q : Qubo α) (k : α × α) (v : Int) :
    dkeys (dinsert Q k v) = if k ∈ dkeys Q then dkeys Q else dkeys Q ++ [k] := by
  induction Q with
  | nil => simp [dinsert, dkeys]
  | cons e Q ih =>
    simp only [dinsert]
    by_cases hek : e.1 = k
    · have : k ∈ dkeys (e :: Q) := by simp [dkeys_cons, hek.symm]
      simp [this, dkeys_cons, hek]
    · have hke : ¬ k = e.1 := fun h => hek h.symm
      rw [if_neg hek, dkeys_cons, dkeys_cons, ih]
      by_cases hk : k ∈ dkeys Q
      · have hmem : k ∈ dkeys (e :: Q) := by simp [dkeys_cons, hk]
        simp [hmem, hk, dkeys_cons]
      · have hmem : k ∉ dkeys (e :: Q) := by simp [dkeys_cons, hke, hk]
        simp [hmem, hk, dkeys_cons, hke]

theorem nodup_dkeys_dinsert {Q : Qubo α} (k : α × α) (v : Int)
    (h : (dkeys Q).Nodup) : (dkeys (dinsert Q k v)).Nodup := by
  rw [dkeys_dinsert]
  by_cases hk : k ∈ dkeys Q
  · simpa [hk] using h
  · simp [hk, List.nodup_append, h]

theorem dlookup_isSome (Q : Qubo α) (k : α × α) :
    (dlookup Q k).isSome = true ↔ k ∈ dkeys Q := by
  induction Q with
  | nil => simp [dlookup_nil, dkeys]
  | cons e Q ih =>
    rw [dlookup_cons, dkeys_cons]
    by_cases h : e.1 = k
    · simp [h]
    · have : ¬ k = e.1 := fun hh => h hh.symm
      simp [h, this, ih]

theorem length_filter_key (Q : Qubo α) (k : α × α) (h : (dkeys Q).Nodup) :
    (Q.filter (fun q => decide (q.1 = k))).length = if k ∈ dkeys Q then 1 else 0 := by
  induction Q with
  | nil => simp [dkeys]
  | cons e Q ih =>
    rw [dkeys_cons] at h ⊢
    have hnd := h.of_cons
    have hnm : e.1 ∉ dkeys Q := (List.nodup_cons.mp h).1
    by_cases hek : e.1 = k
    · subst hek
      have h0 : (Q.filter (fun q => decide (q.1 = e.1))).length = 0 := by
        rw [ih hnd]
        simp [hnm]
      simp [List.filter_cons, h0]
    · have hke : ¬ k = e.1 := fun hh => hek hh.symm
      simp [List.filter_cons, hek, hke, ih hnd]

theorem length_filter_orB {β : Type} (L : List β) (p q : β → Bool)
    (hdisj : ∀ x ∈ L, ¬(p x = true ∧ q x = true)) :
    (L.filter (fun x => p x || q x)).length
      = (L.filter p).length + (L.filter q).length := by
  induction L with
  | nil => simp
  | cons e L ih =>
    have ih2 := ih (fun x hx => hdisj x (List.mem_cons_of_mem e hx))
    have he := hdisj e (List.mem_cons_self e L)
    by_cases hp : p e = true
    · have hq : q e = false := by
        cases hqv : q e
        · rfl
        · exact absurd ⟨hp, hqv⟩ he
      simp [List.filter_cons, hp, hq, ih2]
      omega
    · have hp2 : p e = false := by
        cases hpv : p e
        · rfl
        · exact absurd hpv hp
      by_cases hq : q e = true
      · simp [List.filter_cons, hp2, hq, ih2]
        omega
      · have hq2 : q e = false := by
          cases hqv : q e
          · rfl
          · exact absurd hqv hq
        simp [List.filter_cons, hp2, hq2, ih2]

theorem length_filter_orKey (Q : Qubo α) (k1 k2 : α × α) (h : k1 ≠ k2) :
    (Q.filter (fun q => decide (q.1 = k1 ∨ q.1 = k2))).length
      = (Q.filter (fun q => decide (q.1 = k1))).length
        + (Q.filter (fun q => decide (q.1 = k2))).length := by
  have hd : ∀ x ∈ Q, ¬((decide (x.1 = k1)) = true ∧ (decide (x.1 = k2)) = true) := by
    intro x _ hx
    rcases hx with ⟨h1, h2⟩
    exact h ((of_decide_eq_true h1).symm.trans (of_decide_eq_true h2))
  have := length_filter_orB Q (fun q => decide (q.1 = k1)) (fun q => decide (q.1 = k2)) hd
  simpa [Bool.decide_or] using this

/-! ### Neighbor lists -/

theorem mem_nbrL {L : List (α × α × Int)} {i j : α} :
    j ∈ nbrL L i ↔ ∃ e ∈ L, matchesPair i j e = true := by
  simp only [nbrL, List.mem_filterMap]
  constructor
  · rintro ⟨e, he, hf⟩
    refine ⟨e, he, ?_⟩
    rw [matchesPair_iff]
    by_cases h1 : e.1 = i
    · rw [if_pos h1] at hf
      exact Or.inl ⟨h1, Option.some.inj hf⟩
    · by_cases h2 : e.2.1 = i
      · rw [if_neg h1, if_pos h2] at hf
        exact Or.inr ⟨Option.some.inj hf, h2⟩
      · rw [if_neg h1, if_neg h2] at hf
        exact absurd hf (Option.some_ne_none j).symm
  · rintro ⟨e, he, hm⟩
    refine ⟨e, he, ?_⟩
    rw [matchesPair_iff] at hm
    rcases hm with ⟨h1, h2⟩ | ⟨h1, h2⟩
    · rw [if_pos h1, h2]
    · by_cases h3 : e.1 = i
      · rw [if_pos h3, h2, ← h3, h1]
      · rw [if_neg h3, if_pos h2, h1]

theorem mem_neighbors {g : BGraph α} {i j : α} :
    j ∈ neighbors g i ↔ ∃ e ∈ g.edges, matchesPair i j e = true :=
  mem_nbrL

/-! ### Per-key characterization of `build_qubo` -/

theorem innerFold_lookup (g : BGraph α) (i : α) (js : List α) (Q : Qubo α)
    (p : α × α) :
    dlookup (js.foldl
        (fun Q j => if i < j then dinsert Q (i, j) (2 * edgeWeight g i j) else Q) Q) p
      = if ∃ j ∈ js, i < j ∧ p = (i, j) then some (2 * edgeWeight g i p.2)
        else dlookup Q p := by
  induction js generalizing Q with
  | nil => simp
  | cons j t ih =>
    rw [List.foldl_cons, ih]
    by_cases ht : ∃ x ∈ t, i < x ∧ p = (i, x)
    · obtain ⟨x, hx, hlt, hp⟩ := ht
      have hc : ∃ x ∈ j :: t, i < x ∧ p = (i, x) :=
        ⟨x, List.mem_cons_of_mem j hx, hlt, hp⟩
      rw [if_pos ⟨x, hx, hlt, hp⟩, if_pos hc]
    · rw [if_neg ht]
      by_cases hij : i < j
      · rw [if_pos hij, dlookup_dinsert]
        by_cases hp : p = (i, j)
        · have hc : ∃ x ∈ j :: t, i < x ∧ p = (i, x) :=
            ⟨j, List.mem_cons_self j t, hij, hp⟩
          rw [if_pos hp, if_pos hc, hp]
        · have hc : ¬ ∃ x ∈ j :: t, i < x ∧ p = (i, x) := by
            rintro ⟨x, hx, hlt, hpx⟩
            rcases List.mem_cons.mp hx with rfl | hx2
            · exact hp hpx
            · exact ht ⟨x, hx2, hlt, hpx⟩
          rw [if_neg hp, if_neg hc]
      · rw [if_neg hij]
        have hc : ¬ ∃ x ∈ j :: t, i < x ∧ p = (i, x) := by
          rintro ⟨x, hx, hlt, hpx⟩
          rcases List.mem_cons.mp hx with rfl | hx2
          · exact hij hlt
          · exact ht ⟨x, hx2, hlt, hpx⟩
        rw [if_neg hc]

theorem processNode_lookup (g : BGraph α) (Q : Qubo α) (i : α) (p : α × α) :
    dlookup (processNode g Q i) p
      = if ∃ j ∈ neighbors g i, i < j ∧ p = (i, j) then some (2 * edgeWeight g i p.2)
        else if p = (i, i) then some (diagVal g i) else dlookup Q p := by
  unfold processNode
  rw [innerFold_lookup, dlookup_dinsert]

theorem outerFold_lookup (g : BGraph α) (ns : List α) (Q : Qubo α) (p : α × α) :
    dlookup (ns.foldl (processNode g) Q) p
      = if ∃ i ∈ ns, p = (i, i) then some (diagVal g p.1)
        else if ∃ i ∈ ns, ∃ j ∈ neighbors g i, i < j ∧ p = (i, j)
          then some (2 * edgeWeight g p.1 p.2)
        else dlookup Q p := by
  induction ns generalizing Q with
  | nil => simp
  | cons n t ih =>
    rw [List.foldl_cons, ih]
    by_cases hd : ∃ i ∈ t, p = (i, i)
    · obtain ⟨i, hi, hp⟩ := hd
      have hc : ∃ i ∈ n :: t, p = (i, i) := ⟨i, List.mem_cons_of_mem n hi, hp⟩
      rw [if_pos ⟨i, hi, hp⟩, if_pos hc]
    · rw [if_neg hd]
      by_cases ho : ∃ i ∈ t, ∃ j ∈ neighbors g i, i < j ∧ p = (i, j)
      · obtain ⟨i0, hi0, j0, hj0, hlt, hp⟩ := ho
        have hne : p.1 ≠ p.2 := by
          rw [hp]
          exact ne_of_lt hlt
        have hfd : ¬ ∃ i ∈ n :: t, p = (i, i) := by
          rintro ⟨i, _, hpe⟩
          rw [hpe] at hne
          exact hne rfl
        have hfo : ∃ i ∈ n :: t, ∃ j ∈ neighbors g i, i < j ∧ p = (i, j) :=
          ⟨i0, List.mem_cons_of_mem n hi0, j0, hj0, hlt, hp⟩
        rw [if_pos ⟨i0, hi0, j0, hj0, hlt, hp⟩, if_neg hfd, if_pos hfo]
      · rw [if_neg ho, processNode_lookup]
        by_cases hn : ∃ j ∈ neighbors g n, n < j ∧ p = (n, j)
        · obtain ⟨j0, hj0, hlt, hp⟩ := hn
          have hfo : ∃ i ∈ n :: t, ∃ j ∈ neighbors g i, i < j ∧ p = (i, j) :=
            ⟨n, List.mem_cons_self n t, j0, hj0, hlt, hp⟩
          have hfd : ¬ ∃ i ∈ n :: t, p = (i, i) := by
            rintro ⟨i, _, hpe⟩
            rw [hp] at hpe
            have h1 : n = i := congrArg Prod.fst hpe
            have h2 : j0 = i := congrArg Prod.snd hpe
            exact absurd hlt (by rw [h1, h2]; exact lt_irrefl i)
          rw [if_pos ⟨j0, hj0, hlt, hp⟩, if_neg hfd, if_pos hfo, hp]
        · rw [if_neg hn]
          by_cases hpn : p = (n, n)
          · have hfd : ∃ i ∈ n :: t, p = (i, i) := ⟨n, List.mem_cons_self n t, hpn⟩
            rw [if_pos hpn, if_pos hfd, hpn]
          · have hfd : ¬ ∃ i ∈ n :: t, p = (i, i) := by
              rintro ⟨i, hi, hpe⟩
              rcases List.mem_cons.mp hi with rfl | hi2
              · exact hpn hpe
              · exact hd ⟨i, hi2, hpe⟩
            have hfo : ¬ ∃ i ∈ n :: t, ∃ j ∈ neighbors g i, i < j ∧ p = (i, j) := by
              rintro ⟨i, hi, j, hj, hlt, hpe⟩
              rcases List.mem_cons.mp hi with rfl | hi2
              · exact hn ⟨j, hj, hlt, hpe⟩
              · exact ho ⟨i, hi2, j, hj, hlt, hpe⟩
            rw [if_neg hpn, if_neg hfd, if_neg hfo]

theorem qInit_lookup (ns : List α) (p : α × α) :
    dlookup (qInit ns) p = if ∃ i ∈ ns, p = (i, i) then some 0 else none := by
  induction ns with
  | nil => simp [qInit, dlookup_nil]
  | cons n t ih =>
    simp only [qInit, List.map_cons]
    rw [dlookup_cons]
    by_cases h : p = (n, n)
    · have h2 : ((n, n), (0 : Int)).1 = p := h.symm
      have hc : ∃ i ∈ n :: t, p = (i, i) := ⟨n, List.mem_cons_self n t, h⟩
      rw [if_pos h2, if_pos hc]
    · have h2 : ¬ ((n, n), (0 : Int)).1 = p := fun hh => h hh.symm
      rw [if_neg h2]
      show dlookup (qInit t) p = _
      rw [ih]
      by_cases ht : ∃ i ∈ t, p = (i, i)
      · obtain ⟨i, hi, hp⟩ := ht
        have hc : ∃ i ∈ n :: t, p = (i, i) := ⟨i, List.mem_cons_of_mem n hi, hp⟩
        rw [if_pos ⟨i, hi, hp⟩, if_pos hc]
      · have hc : ¬ ∃ i ∈ n :: t, p = (i, i) := by
          rintro ⟨i, hi, hp⟩
          rcases List.mem_cons.mp hi with rfl | hi2
          · exact h hp
          · exact ht ⟨i, hi2, hp⟩
        rw [if_neg ht, if_neg hc]

theorem buildQubo_lookup (g : BGraph α) (x y : α) :
    dlookup (buildQubo g) (x, y)
      = if x = y then (if x ∈ g.nodes then some (diagVal g x) else none)
        else if x ∈ g.nodes ∧ y ∈ neighbors g x ∧ x < y
          then some (2 * edgeWeight g x y) else none := by
  unfold buildQubo
  rw [outerFold_lookup, qInit_lookup]
  by_cases hxy : x = y
  · subst hxy
    by_cases hx : x ∈ g.nodes
    · have hc : ∃ i ∈ g.nodes, (x, x) = (i, i) := ⟨x, hx, rfl⟩
      rw [if_pos hc, if_pos rfl, if_pos hx]
    · have hc : ¬ ∃ i ∈ g.nodes, (x, x) = (i, i) := by
        rintro ⟨i, hi, hp⟩
        have : x = i := congrArg Prod.fst hp
        rw [this] at hx
        exact hx hi
      have ho : ¬ ∃ i ∈ g.nodes, ∃ j ∈ neighbors g i, i < j ∧ (x, x) = (i, j) := by
        rintro ⟨i, _, j, _, hlt, hp⟩
        have h1 : x = i := congrArg Prod.fst hp
        have h2 : x = j := congrArg Prod.snd hp
        rw [← h1, ← h2] at hlt
        exact lt_irrefl x hlt
      rw [if_neg hc, if_neg ho, if_neg hc, if_pos rfl, if_neg hx]
  · have hc : ¬ ∃ i ∈ g.nodes, (x, y) = (i, i) := by
      rintro ⟨i, _, hp⟩
      have h1 : x = i := congrArg Prod.fst hp
      have h2 : y = i := congrArg Prod.snd hp
      exact hxy (h1.trans h2.symm)
    rw [if_neg hc, if_neg hxy]
    by_cases ho : x ∈ g.nodes ∧ y ∈ neighbors g x ∧ x < y
    · obtain ⟨hx, hy, hlt⟩ := ho
      have hfo : ∃ i ∈ g.nodes, ∃ j ∈ neighbors g i, i < j ∧ (x, y) = (i, j) :=
        ⟨x, hx, y, hy, hlt, rfl⟩
      rw [if_pos hfo, if_pos ⟨hx, hy, hlt⟩]
    · have hfo : ¬ ∃ i ∈ g.nodes, ∃ j ∈ neighbors g i, i < j ∧ (x, y) = (i, j) := by
        rintro ⟨i, hi, j, hj, hlt, hp⟩
        have h1 : x = i := congrArg Prod.fst hp
        have h2 : y = j := congrArg Prod.snd hp
        subst h1
        subst h2
        exact ho ⟨hi, hj, hlt⟩
      rw [if_neg hfo, if_neg ho, if_neg hc]

/-! ### Well-formedness of reachable graph states -/

theorem addNode_mem_self (x : α) (ns : List α) : x ∈ addNode x ns := by
  by_cases h : x ∈ ns <;> simp [addNode, h]

theorem mem_addNode {x y : α} {ns : List α} : x ∈ addNode y ns ↔ x = y ∨ x ∈ ns := by
  by_cases h : y ∈ ns
  · rw [addNode, if_pos h]
    exact ⟨Or.inr, fun hh => hh.elim (fun hxy => hxy ▸ h) id⟩
  · rw [addNode, if_neg h]
    simp [List.mem_append, or_comm]

theorem addNode_nodup {ns : List α} (x : α) (h : ns.Nodup) : (addNode x ns).Nodup := by
  by_cases hx : x ∈ ns
  · simpa [addNode, hx] using h
  · simp [addNode, hx, List.nodup_append, h]

theorem addNode_of_mem {x : α} {ns : List α} (h : x ∈ ns) : addNode x ns = ns := by
  simp [addNode, h]

theorem hasEdge_iff {g : BGraph α} {a b : α} :
    hasEdge g a b = true ↔ ∃ e ∈ g.edges, matchesPair a b e = true := by
  simp [hasEdge, List.any_eq_true]

theorem matchesPair_of_endpoints {i j : α} {e1 e2 : α × α × Int}
    (h1 : e1.1 = e2.1) (h2 : e1.2.1 = e2.2.1) :
    matchesPair i j e1 = matchesPair i j e2 := by
  unfold matchesPair
  rw [h1, h2]

theorem addEdge_nodes (a b : α) (w : Int) (g : BGraph α) :
    (addEdge a b w g).nodes = addNode b (addNode a g.nodes) :=
  rfl

theorem addEdge_edges_pos {g : BGraph α} {a b : α} (w : Int)
    (h : g.edges.any (matchesPair a b) = true) :
    (addEdge a b w g).edges
      = g.edges.map (fun e => if matchesPair a b e then (e.1, e.2.1, w) else e) := by
  simp [addEdge, h]

theorem addEdge_edges_neg {g : BGraph α} {a b : α} (w : Int)
    (h : g.edges.any (matchesPair a b) = false) :
    (addEdge a b w g).edges = g.edges ++ [(a, b, w)] := by
  simp [addEdge, h]

theorem overwrite_fst (a b : α) (w : Int) (e : α × α × Int) :
    (if matchesPair a b e then (e.1, e.2.1, w) else e).1 = e.1 := by
  by_cases h : matchesPair a b e = true <;> simp [h]

theorem overwrite_snd (a b : α) (w : Int) (e : α × α × Int) :
    (if matchesPair a b e then (e.1, e.2.1, w) else e).2.1 = e.2.1 := by
  by_cases h : matchesPair a b e = true <;> simp [h]

theorem matchesPair_overwrite (i j a b : α) (w : Int) (e : α × α × Int) :
    matchesPair i j (if matchesPair a b e then (e.1, e.2.1, w) else e)
      = matchesPair i j e :=
  matchesPair_of_endpoints (overwrite_fst a b w e) (overwrite_snd a b w e)

theorem matchesPair_flip (a b : α) (w : Int) (e : α × α × Int) :
    matchesPair e.1 e.2.1 (a, b, w) = matchesPair a b e := by
  apply decide_eq_decide.mpr
  constructor
  · rintro (⟨h1, h2⟩ | ⟨h1, h2⟩)
    · exact Or.inl ⟨h1.symm, h2.symm⟩
    · exact Or.inr ⟨h2.symm, h1.symm⟩
  · rintro (⟨h1, h2⟩ | ⟨h1, h2⟩)
    · exact Or.inl ⟨h1.symm, h2.symm⟩
    · exact Or.inr ⟨h2.symm, h1.symm⟩

theorem WF_empty : WF (emptyGraph : BGraph α) :=
  ⟨List.nodup_nil, List.Pairwise.nil, by intro e he; cases he⟩

theorem WF_addEdge {g : BGraph α} (a b : α) (w : Int) (h : WF g) :
    WF (addEdge a b w g) := by
  obtain ⟨hnd, hpw, hep⟩ := h
  refine ⟨addNode_nodup b (addNode_nodup a hnd), ?_, ?_⟩
  · by_cases hp : g.edges.any (matchesPair a b) = true
    · rw [addEdge_edges_pos w hp, List.pairwise_map]
      refine List.Pairwise.imp ?_ hpw
      intro e1 e2 h12
      rw [overwrite_fst, overwrite_snd, matchesPair_overwrite]
      exact h12
    · have hp2 : g.edges.any (matchesPair a b) = false := by
        revert hp
        cases g.edges.any (matchesPair a b) <;> simp
      rw [addEdge_edges_neg w hp2, List.pairwise_append]
      refine ⟨hpw, List.pairwise_singleton _ _, ?_⟩
      intro e1 h1 e2 h2
      rw [List.mem_singleton] at h2
      subst h2
      rw [matchesPair_flip]
      have := (List.any_eq_false.mp hp2) e1 h1
      revert this
      cases matchesPair a b e1 <;> simp
  · intro e he
    by_cases hp : g.edges.any (matchesPair a b) = true
    · rw [addEdge_edges_pos w hp] at he
      obtain ⟨e0, he0, rfl⟩ := List.mem_map.mp he
      rw [addEdge_nodes, overwrite_fst, overwrite_snd]
      obtain ⟨h1, h2⟩ := hep e0 he0
      exact ⟨mem_addNode.mpr (Or.inr (mem_addNode.mpr (Or.inr h1))),
             mem_addNode.mpr (Or.inr (mem_addNode.mpr (Or.inr h2)))⟩
    · have hp2 : g.edges.any (matchesPair a b) = false := by
        revert hp
        cases g.edges.any (matchesPair a b) <;> simp
      rw [addEdge_edges_neg w hp2] at he
      rw [List.mem_append] at he
      rcases he with he | he
      · obtain ⟨h1, h2⟩ := hep e he
        rw [addEdge_nodes]
        exact ⟨mem_addNode.mpr (Or.inr (mem_addNode.mpr (Or.inr h1))),
               mem_addNode.mpr (Or.inr (mem_addNode.mpr (Or.inr h2)))⟩
      · rw [List.mem_singleton] at he
        subst he
        rw [addEdge_nodes]
        exact ⟨mem_addNode.mpr (Or.inr (addNode_mem_self a g.nodes)),
               addNode_mem_self b _⟩

theorem WF_addTradeDesire {g : BGraph α} (a b : α) (h : WF g) :
    WF (addTradeDesire a b g) :=
  WF_addEdge a b 1 h

theorem WF_applyTrades (ts : List (α × α)) {g : BGraph α} (h : WF g) :
    WF (applyTrades ts g) := by
  induction ts generalizing g with
  | nil => exact h
  | cons t ts ih => exact ih (WF_addTradeDesire t.1 t.2 h)

theorem Reachable.wf {g : BGraph α} (h : Reachable g) : WF g := by
  obtain ⟨ts, rfl⟩ := h
  exact WF_applyTrades ts WF_empty

/-! ### Weight lookup on well-formed graphs -/

theorem matchesPair_self (e : α × α × Int) : matchesPair e.1 e.2.1 e = true := by
  rw [matchesPair_iff]
  exact Or.inl ⟨rfl, rfl⟩

theorem wtL_of_mem {L : List (α × α × Int)} {i j : α} {e : α × α × Int}
    (hpw : L.Pairwise (fun e1 e2 => matchesPair e1.1 e1.2.1 e2 = false))
    (he : e ∈ L) (hm : matchesPair i j e = true) :
    wtL L i j = e.2.2 := by
  induction L with
  | nil => cases he
  | cons f L ih =>
    rw [List.pairwise_cons] at hpw
    obtain ⟨hf, hpw2⟩ := hpw
    rcases List.mem_cons.mp he with rfl | he2
    · simp [wtL, List.find?, hm]
    · by_cases hfm : matchesPair i j f = true
      · have htr := matchesPair_trans hfm hm
        rw [hf e he2] at htr
        cases htr
      · have hfm2 : matchesPair i j f = false := by
          revert hfm
          cases matchesPair i j f <;> simp
        have hskip : wtL (f :: L) i j = wtL L i j := by
          simp [wtL, List.find?, hfm2]
        rw [hskip]
        exact ih hpw2 he2

theorem edgeWeight_of_mem {g : BGraph α} {i j : α} {e : α × α × Int}
    (h : WF g) (he : e ∈ g.edges) (hm : matchesPair i j e = true) :
    edgeWeight g i j = e.2.2 :=
  wtL_of_mem h.2.1 he hm

/-! ### Sum helpers -/

theorem sum_map_add {β : Type} (l : List β) (f g : β → Int) :
    (l.map (fun x => f x + g x)).sum = (l.map f).sum + (l.map g).sum := by
  induction l with
  | nil => simp
  | cons x l ih =>
    simp only [List.map_cons, List.sum_cons, ih]
    ring

theorem sum_map_zero {β : Type} (l : List β) :
    (l.map (fun _ => (0 : Int))).sum = 0 := by
  induction l with
  | nil => simp
  | cons x l ih => simp [ih]

theorem sum_if_single {ns : List α} (c : α) (u : Int) (h : ns.Nodup) :
    (ns.map (fun i => if c = i then u else 0)).sum = if c ∈ ns then u else 0 := by
  induction ns with
  | nil => simp
  | cons n t ih =>
    rw [List.nodup_cons] at h
    obtain ⟨hn, ht⟩ := h
    rw [List.map_cons, List.sum_cons, ih ht]
    by_cases hc : c = n
    · subst hc
      have hct : c ∉ t := hn
      simp [hct]
    · rw [if_neg hc]
      by_cases hcm : c ∈ t
      · simp [hcm, List.mem_cons, hc]
      · simp [hcm, List.mem_cons, hc]

theorem sum_if_two_fn {ns : List α} (a b : α) (F G : α → Int) (h : ns.Nodup)
    (ha : a ∈ ns) (hb : b ∈ ns) (hab : a ≠ b) :
    (ns.map (fun i => if a = i then F i else if b = i then G i else 0)).sum
      = F a + G b := by
  have hpt : ∀ i, (if a = i then F i else if b = i then G i else 0)
      = (if a = i then F a else 0) + (if b = i then G b else 0) := by
    intro i
    by_cases h1 : a = i
    · have h2 : ¬ b = i := fun hh => hab (h1.trans hh.symm)
      rw [if_pos h1, if_pos h1, if_neg h2, ← h1]
      ring
    · by_cases h2 : b = i
      · rw [if_neg h1, if_pos h2, if_neg h1, if_pos h2, ← h2]
        ring
      · simp [h1, h2]
  have hfun : (fun i => if a = i then F i else if b = i then G i else 0)
      = fun i => (if a = i then F a else 0) + (if b = i then G b else 0) :=
    funext hpt
  rw [hfun, sum_map_add, sum_if_single a (F a) h, sum_if_single b (G b) h,
    if_pos ha, if_pos hb]

/-! ### Neighbor sums as edge sums -/

theorem nbr_sum_eq_edge_sum (i : α) (f : α → Int → Int) :
    ∀ {L : List (α × α × Int)},
    L.Pairwise (fun e1 e2 => matchesPair e1.1 e1.2.1 e2 = false) →
    ((nbrL L i).map (fun j => f j (wtL L i j))).sum
      = (L.map (fun e =>
          if e.1 = i then f e.2.1 e.2.2
          else if e.2.1 = i then f e.1 e.2.2 else 0)).sum := by
  intro L
  induction L with
  | nil => intro _; simp [nbrL]
  | cons e L ih =>
    intro hpw
    rw [List.pairwise_cons] at hpw
    obtain ⟨hhead, htail⟩ := hpw
    have ihe := ih htail
    have hw : ∀ j ∈ nbrL L i, wtL (e :: L) i j = wtL L i j := by
      intro j hj
      by_cases hm : matchesPair i j e = true
      · obtain ⟨e2, he2, hm2⟩ := mem_nbrL.mp hj
        have htr := matchesPair_trans hm hm2
        rw [hhead e2 he2] at htr
        cases htr
      · have hm2 : matchesPair i j e = false := by
          revert hm
          cases matchesPair i j e <;> simp
        simp [wtL, List.find?, hm2]
    have hmap : (nbrL L i).map (fun j => f j (wtL (e :: L) i j))
        = (nbrL L i).map (fun j => f j (wtL L i j)) := by
      apply List.map_congr_left
      intro j hj
      rw [hw j hj]
    by_cases h1 : e.1 = i
    · have hnb : nbrL (e :: L) i = e.2.1 :: nbrL L i := by
        simp [nbrL, List.filterMap_cons, h1]
      have hm : matchesPair i e.2.1 e = true := by
        rw [matchesPair_iff]
        exact Or.inl ⟨h1, rfl⟩
      have hwt : wtL (e :: L) i e.2.1 = e.2.2 := by
        simp [wtL, List.find?, hm]
      rw [hnb, List.map_cons, List.sum_cons, hwt, hmap, ihe,
        List.map_cons, List.sum_cons, if_pos h1]
    · by_cases h2 : e.2.1 = i
      · have hnb : nbrL (e :: L) i = e.1 :: nbrL L i := by
          simp [nbrL, List.filterMap_cons, h1, h2]
        have hm : matchesPair i e.1 e = true := by
          rw [matchesPair_iff]
          exact Or.inr ⟨rfl, h2⟩
        have hwt : wtL (e :: L) i e.1 = e.2.2 := by
          simp [wtL, List.find?, hm]
        rw [hnb, List.map_cons, List.sum_cons, hwt, hmap, ihe,
          List.map_cons, List.sum_cons, if_neg h1, if_pos h2]
      · have hnb : nbrL (e :: L) i = nbrL L i := by
          simp [nbrL, List.filterMap_cons, h1, h2]
        rw [hnb, hmap, ihe, List.map_cons, List.sum_cons, if_neg h1, if_neg h2,
          zero_add]

theorem iwsL_eq_mapSum (i : α) (L : List (α × α × Int)) :
    iwsL L i = (L.map (fun e =>
      if e.1 = i then e.2.2 else if e.2.1 = i then e.2.2 else 0)).sum := by
  induction L with
  | nil => simp [iwsL]
  | cons e L ih =>
    by_cases h1 : e.1 = i
    · have hc : e.1 = i ∨ e.2.1 = i := Or.inl h1
      simp only [iwsL, List.filter_cons, decide_eq_true_eq] at ih ⊢
      rw [if_pos hc, List.map_cons, List.sum_cons, List.map_cons, List.sum_cons,
        if_pos h1, ih]
    · by_cases h2 : e.2.1 = i
      · have hc : e.1 = i ∨ e.2.1 = i := Or.inr h2
        simp only [iwsL, List.filter_cons, decide_eq_true_eq] at ih ⊢
        rw [if_pos hc, List.map_cons, List.sum_cons, List.map_cons, List.sum_cons,
          if_neg h1, if_pos h2, ih]
      · have hc : ¬ (e.1 = i ∨ e.2.1 = i) := by
          rintro (h | h)
          · exact h1 h
          · exact h2 h
        simp only [iwsL, List.filter_cons, decide_eq_true_eq] at ih ⊢
        rw [if_neg hc, List.map_cons, List.sum_cons, if_neg h1, if_neg h2, ih,
          zero_add]

theorem diagVal_eq_iws {g : BGraph α} (h : WF g) (i : α) :
    diagVal g i = - incidentWeightSum g i := by
  unfold diagVal
  have h1 : ((neighbors g i).map (fun j => edgeWeight g i j)).sum
      = (g.edges.map (fun e =>
          if e.1 = i then e.2.2 else if e.2.1 = i then e.2.2 else 0)).sum :=
    nbr_sum_eq_edge_sum i (fun _ w => w) h.2.1
  have h2 : incidentWeightSum g i = iwsL g.edges i := rfl
  rw [h1, h2, iwsL_eq_mapSum]

/-! ### Sum of all dict values is determined by the key-value mapping -/

theorem dvals_cons (e : (α × α) × Int) (Q : Qubo α) :
    dvals (e :: Q) = e.2 :: dvals Q :=
  rfl

theorem sum_dvals_derase {Q : Qubo α} {k : α × α} {v : Int}
    (h : dlookup Q k = some v) :
    (dvals Q).sum = v + (dvals (derase Q k)).sum := by
  induction Q with
  | nil => rw [dlookup_nil] at h; cases h
  | cons e Q ih =>
    rw [dlookup_cons] at h
    by_cases he : e.1 = k
    · rw [if_pos he] at h
      have hv : e.2 = v := Option.some.inj h
      rw [derase, if_pos he, dvals_cons, List.sum_cons, hv]
    · rw [if_neg he] at h
      rw [derase, if_neg he, dvals_cons, dvals_cons, List.sum_cons, List.sum_cons,
        ih h]
      ring

theorem dlookup_derase_ne {Q : Qubo α} {k k2 : α × α} (h : k2 ≠ k) :
    dlookup (derase Q k) k2 = dlookup Q k2 := by
  induction Q with
  | nil => rw [derase]
  | cons e Q ih =>
    by_cases he : e.1 = k
    · have hne : ¬ e.1 = k2 := fun hh => h (hh.symm.trans he)
      rw [derase, if_pos he, dlookup_cons, if_neg hne]
    · rw [derase, if_neg he, dlookup_cons, dlookup_cons, ih]

theorem dlookup_derase_self {Q : Qubo α} (k : α × α) (h : (dkeys Q).Nodup) :
    dlookup (derase Q k) k = none := by
  induction Q with
  | nil => rw [derase, dlookup_nil]
  | cons e Q ih =>
    rw [dkeys_cons, List.nodup_cons] at h
    obtain ⟨hn, ht⟩ := h
    by_cases he : e.1 = k
    · rw [derase, if_pos he]
      cases hq : dlookup Q k with
      | none => rfl
      | some v =>
        have hmem := (dlookup_isSome Q k).mp (by rw [hq]; rfl)
        rw [← he] at hmem
        exact absurd hmem hn
    · rw [derase, if_neg he, dlookup_cons, if_neg he]
      exact ih ht

theorem derase_sublist (Q : Qubo α) (k : α × α) : (derase Q k).Sublist Q := by
  induction Q with
  | nil => rw [derase]
  | cons e Q ih =>
    by_cases he : e.1 = k
    · rw [derase, if_pos he]
      exact List.sublist_cons_self e Q
    · rw [derase, if_neg he]
      exact ih.cons₂ e

theorem nodup_dkeys_derase {Q : Qubo α} (k : α × α) (h : (dkeys Q).Nodup) :
    (dkeys (derase Q k)).Nodup :=
  List.Nodup.sublist (List.Sublist.map _ (derase_sublist Q k)) h

theorem sum_dvals_ext : ∀ (Q1 Q2 : Qubo α), (dkeys Q1).Nodup → (dkeys Q2).Nodup →
    (∀ k, dlookup Q1 k = dlookup Q2 k) → (dvals Q1).sum = (dvals Q2).sum := by
  intro Q1
  induction Q1 with
  | nil =>
    intro Q2 _ _ hl
    cases Q2 with
    | nil => rfl
    | cons e Q2 =>
      have := hl e.1
      rw [dlookup_nil, dlookup_cons, if_pos rfl] at this
      cases this
  | cons e Q1 ih =>
    intro Q2 h1 h2 hl
    have hk : dlookup Q2 e.1 = some e.2 := by
      rw [← hl e.1, dlookup_cons, if_pos rfl]
    rw [dkeys_cons, List.nodup_cons] at h1
    obtain ⟨hn1, ht1⟩ := h1
    have hsum2 := sum_dvals_derase hk
    have hnd2 : (dkeys (derase Q2 e.1)).Nodup := nodup_dkeys_derase _ h2
    have hlook : ∀ k, dlookup Q1 k = dlookup (derase Q2 e.1) k := by
      intro k
      by_cases hke : k = e.1
      · rw [hke, dlookup_derase_self _ h2]
        cases hq : dlookup Q1 e.1 with
        | none => rfl
        | some v =>
          have hmem := (dlookup_isSome Q1 e.1).mp (by rw [hq]; rfl)
          exact absurd hmem hn1
      · rw [dlookup_derase_ne hke, ← hl k, dlookup_cons]
        have hek : ¬ e.1 = k := fun hh => hke hh.symm
        rw [if_neg hek]
    have hrec := ih (derase Q2 e.1) ht1 hnd2 hlook
    rw [dvals_cons, List.sum_cons, hrec, hsum2]

/-! ### The built QUBO dict has pairwise-distinct keys -/

theorem dkeys_nodup_qstepFold (g : BGraph α) (i : α) :
    ∀ (js : List α) (Q : Qubo α), (dkeys Q).Nodup →
    (dkeys (js.foldl
      (fun Q j => if i < j then dinsert Q (i, j) (2 * edgeWeight g i j) else Q) Q)).Nodup := by
  intro js
  induction js with
  | nil => intro Q h; exact h
  | cons j t ih =>
    intro Q h
    rw [List.foldl_cons]
    apply ih
    by_cases hij : i < j
    · rw [if_pos hij]
      exact nodup_dkeys_dinsert _ _ h
    · rw [if_neg hij]
      exact h

theorem dkeys_nodup_processNode (g : BGraph α) (i : α) {Q : Qubo α}
    (h : (dkeys Q).Nodup) : (dkeys (processNode g Q i)).Nodup := by
  unfold processNode
  exact dkeys_nodup_qstepFold g i (neighbors g i) _ (nodup_dkeys_dinsert _ _ h)

theorem dkeys_nodup_outerFold (g : BGraph α) :
    ∀ (ns : List α) (Q : Qubo α), (dkeys Q).Nodup →
    (dkeys (ns.foldl (processNode g) Q)).Nodup := by
  intro ns
  induction ns with
  | nil => intro Q h; exact h
  | cons n t ih =>
    intro Q h
    rw [List.foldl_cons]
    exact ih _ (dkeys_nodup_processNode g n h)

theorem dkeys_qInit (ns : List α) :
    dkeys (qInit ns) = ns.map (fun i => (i, i)) := by
  simp [dkeys, qInit, List.map_map, Function.comp]

theorem dkeys_nodup_buildQubo {g : BGraph α} (h : g.nodes.Nodup) :
    (dkeys (buildQubo g)).Nodup := by
  unfold buildQubo
  apply dkeys_nodup_outerFold
  rw [dkeys_qInit]
  exact h.map (fun a b hab => congrArg Prod.fst hab)

/-! ### `quboAlt` agrees with `buildQubo` as a mapping -/

theorem dlookup_append_some {A B : Qubo α} {k : α × α} {v : Int}
    (h : dlookup A k = some v) : dlookup (A ++ B) k = some v := by
  induction A with
  | nil => rw [dlookup_nil] at h; cases h
  | cons e A ih =>
    rw [dlookup_cons] at h
    by_cases he : e.1 = k
    · rw [if_pos he] at h
      rw [List.cons_append, dlookup_cons, if_pos he]
      exact h
    · rw [if_neg he] at h
      rw [List.cons_append, dlookup_cons, if_neg he]
      exact ih h

theorem dlookup_append_none {A B : Qubo α} {k : α × α}
    (h : dlookup A k = none) : dlookup (A ++ B) k = dlookup B k := by
  induction A with
  | nil => rfl
  | cons e A ih =>
    rw [dlookup_cons] at h
    by_cases he : e.1 = k
    · rw [if_pos he] at h
      cases h
    · rw [if_neg he] at h
      rw [List.cons_append, dlookup_cons, if_neg he]
      exact ih h

theorem dlookup_diagBlock (ns : List α) (dv : α → Int) (p : α × α) :
    dlookup (ns.map (fun i => ((i, i), dv i))) p
      = if ∃ i ∈ ns, p = (i, i) then some (dv p.1) else none := by
  induction ns with
  | nil => simp [dlookup_nil]
  | cons n t ih =>
    rw [List.map_cons, dlookup_cons]
    by_cases hp : p = (n, n)
    · have h1 : ((n, n), dv n).1 = p := by rw [hp]
      rw [if_pos h1, if_pos ⟨n, List.mem_cons_self n t, hp⟩, hp]
    · have h1 : ¬ ((n, n), dv n).1 = p := fun hh => hp hh.symm
      rw [if_neg h1, ih]
      by_cases ht : ∃ i ∈ t, p = (i, i)
      · obtain ⟨i, hi, he⟩ := ht
        rw [if_pos ⟨i, hi, he⟩, if_pos ⟨i, List.mem_cons_of_mem n hi, he⟩]
      · have hc : ¬ ∃ i ∈ n :: t, p = (i, i) := by
          rintro ⟨i, hi, he⟩
          rcases List.mem_cons.mp hi with rfl | hi2
          · exact hp he
          · exact ht ⟨i, hi2, he⟩
        rw [if_neg ht, if_neg hc]

theorem dlookup_filterMapIf (i : α) (F : α → Int) :
    ∀ (js : List α) (p : α × α),
    dlookup (js.filterMap (fun j => if i < j then some ((i, j), F j) else none)) p
      = if ∃ j ∈ js, i < j ∧ p = (i, j) then some (F p.2) else none := by
  intro js
  induction js with
  | nil => intro p; simp [dlookup_nil]
  | cons j t ih =>
    intro p
    by_cases hij : i < j
    · have hred : ((j :: t).filterMap
          (fun j => if i < j then some ((i, j), F j) else none))
          = ((i, j), F j)
            :: t.filterMap (fun j => if i < j then some ((i, j), F j) else none) := by
        simp [List.filterMap_cons, hij]
      rw [hred, dlookup_cons]
      by_cases hp : p = (i, j)
      · have h1 : ((i, j), F j).1 = p := by rw [hp]
        rw [if_pos h1, if_pos ⟨j, List.mem_cons_self j t, hij, hp⟩, hp]
      · have h1 : ¬ ((i, j), F j).1 = p := fun hh => hp hh.symm
        rw [if_neg h1, ih p]
        by_cases ht : ∃ x ∈ t, i < x ∧ p = (i, x)
        · obtain ⟨x, hx, hl1, hl2⟩ := ht
          rw [if_pos ⟨x, hx, hl1, hl2⟩,
            if_pos ⟨x, List.mem_cons_of_mem j hx, hl1, hl2⟩]
        · have hc : ¬ ∃ x ∈ j :: t, i < x ∧ p = (i, x) := by
            rintro ⟨x, hx, hl1, hl2⟩
            rcases List.mem_cons.mp hx with rfl | hx2
            · exact hp hl2
            · exact ht ⟨x, hx2, hl1, hl2⟩
          rw [if_neg ht, if_neg hc]
    · have hred : ((j :: t).filterMap
          (fun j => if i < j then some ((i, j), F j) else none))
          = t.filterMap (fun j => if i < j then some ((i, j), F j) else none) := by
        simp [List.filterMap_cons, hij]
      rw [hred, ih p]
      by_cases ht : ∃ x ∈ t, i < x ∧ p = (i, x)
      · obtain ⟨x, hx, hl1, hl2⟩ := ht
        rw [if_pos ⟨x, hx, hl1, hl2⟩,
          if_pos ⟨x, List.mem_cons_of_mem j hx, hl1, hl2⟩]
      · have hc : ¬ ∃ x ∈ j :: t, i < x ∧ p = (i, x) := by
          rintro ⟨x, hx, hl1, hl2⟩
          rcases List.mem_cons.mp hx with rfl | hx2
          · exact hij hl1
          · exact ht ⟨x, hx2, hl1, hl2⟩
        rw [if_neg ht, if_neg hc]

theorem dlookup_offBlock (g : BGraph α) :
    ∀ (ns : List α) (p : α × α),
    dlookup (ns.flatMap (offList g)) p
      = if ∃ i ∈ ns, ∃ j ∈ neighbors g i, i < j ∧ p = (i, j)
        then some (2 * edgeWeight g p.1 p.2) else none := by
  intro ns
  induction ns with
  | nil => intro p; simp [dlookup_nil]
  | cons n t ih =>
    intro p
    rw [List.flatMap_cons]
    have hone : dlookup (offList g n) p
        = if ∃ j ∈ neighbors g n, n < j ∧ p = (n, j)
          then some (2 * edgeWeight g n p.2) else none :=
      dlookup_filterMapIf n (fun j => 2 * edgeWeight g n j) (neighbors g n) p
    by_cases hn : ∃ j ∈ neighbors g n, n < j ∧ p = (n, j)
    · obtain ⟨j0, hj0, hlt, hp⟩ := hn
      have hsome : dlookup (offList g n) p = some (2 * edgeWeight g n p.2) := by
        rw [hone, if_pos ⟨j0, hj0, hlt, hp⟩]
      rw [dlookup_append_some hsome,
        if_pos ⟨n, List.mem_cons_self n t, j0, hj0, hlt, hp⟩, hp]
    · have hnone : dlookup (offList g n) p = none := by
        rw [hone, if_neg hn]
      rw [dlookup_append_none hnone, ih p]
      by_cases ht : ∃ i ∈ t, ∃ j ∈ neighbors g i, i < j ∧ p = (i, j)
      · obtain ⟨i, hi, j, hj, hl1, hl2⟩ := ht
        rw [if_pos ⟨i, hi, j, hj, hl1, hl2⟩,
          if_pos ⟨i, List.mem_cons_of_mem n hi, j, hj, hl1, hl2⟩]
      · have hc : ¬ ∃ i ∈ n :: t, ∃ j ∈ neighbors g i, i < j ∧ p = (i, j) := by
          rintro ⟨i, hi, j, hj, hl1, hl2⟩
          rcases List.mem_cons.mp hi with rfl | hi2
          · exact hn ⟨j, hj, hl1, hl2⟩
          · exact ht ⟨i, hi2, j, hj, hl1, hl2⟩
        rw [if_neg ht, if_neg hc]

theorem dlookup_quboAlt (g : BGraph α) (p : α × α) :
    dlookup (quboAlt g) p = dlookup (buildQubo g) p := by
  obtain ⟨x, y⟩ := p
  rw [buildQubo_lookup]
  unfold quboAlt
  by_cases hxy : x = y
  · subst hxy
    by_cases hx : x ∈ g.nodes
    · have hd : dlookup (g.nodes.map (fun i => ((i, i), diagVal g i))) (x, x)
          = some (diagVal g x) := by
        rw [dlookup_diagBlock, if_pos ⟨x, hx, rfl⟩]
      rw [dlookup_append_some hd, if_pos rfl, if_pos hx]
    · have hd : dlookup (g.nodes.map (fun i => ((i, i), diagVal g i))) (x, x)
          = none := by
        rw [dlookup_diagBlock]
        have hc : ¬ ∃ i ∈ g.nodes, ((x : α), x) = (i, i) := by
          rintro ⟨i, hi, he⟩
          have : x = i := congrArg Prod.fst he
          rw [this] at hx
          exact hx hi
        rw [if_neg hc]
      rw [dlookup_append_none hd, dlookup_offBlock]
      have ho : ¬ ∃ i ∈ g.nodes, ∃ j ∈ neighbors g i, i < j ∧ ((x : α), x) = (i, j) := by
        rintro ⟨i, _, j, _, hlt, hp⟩
        have h1 : x = i := congrArg Prod.fst hp
        have h2 : x = j := congrArg Prod.snd hp
        rw [← h1, ← h2] at hlt
        exact lt_irrefl x hlt
      rw [if_neg ho, if_pos rfl, if_neg hx]
  · have hd : dlookup (g.nodes.map (fun i => ((i, i), diagVal g i))) (x, y)
        = none := by
      rw [dlookup_diagBlock]
      have hc : ¬ ∃ i ∈ g.nodes, ((x : α), y) = (i, i) := by
        rintro ⟨i, _, he⟩
        have h1 : x = i := congrArg Prod.fst he
        have h2 : y = i := congrArg Prod.snd he
        exact hxy (h1.trans h2.symm)
      rw [if_neg hc]
    rw [dlookup_append_none hd, dlookup_offBlock, if_neg hxy]
    by_cases ho : x ∈ g.nodes ∧ y ∈ neighbors g x ∧ x < y
    · obtain ⟨h1, h2, h3⟩ := ho
      rw [if_pos ⟨x, h1, y, h2, h3, rfl⟩, if_pos ⟨h1, h2, h3⟩]
    · have hc : ¬ ∃ i ∈ g.nodes, ∃ j ∈ neighbors g i, i < j ∧ ((x : α), y) = (i, j) := by
        rintro ⟨i, hi, j, hj, hlt, hp⟩
        have ha : x = i := congrArg Prod.fst hp
        have hb : y = j := congrArg Prod.snd hp
        subst ha
        subst hb
        exact ho ⟨hi, hj, hlt⟩
      rw [if_neg hc, if_neg ho]

/-! ### Key distinctness of `quboAlt` -/

theorem nbrFun_some {i j : α} {e : α × α × Int}
    (h : (if e.1 = i then some e.2.1 else if e.2.1 = i then some e.1 else none)
      = some j) :
    matchesPair i j e = true := by
  rw [matchesPair_iff]
  by_cases h1 : e.1 = i
  · rw [if_pos h1] at h
    exact Or.inl ⟨h1, Option.some.inj h⟩
  · by_cases h2 : e.2.1 = i
    · rw [if_neg h1, if_pos h2] at h
      exact Or.inr ⟨Option.some.inj h, h2⟩
    · rw [if_neg h1, if_neg h2] at h
      cases h

theorem neighbors_nodup {g : BGraph α} (h : WF g) (i : α) :
    (neighbors g i).Nodup := by
  have hpw := h.2.1
  show List.Pairwise _ (nbrL g.edges i)
  unfold nbrL
  refine List.Pairwise.filterMap _ ?_ hpw
  intro e1 e2 hR b hb b2 hb2
  intro heq
  have m1 := nbrFun_some (Option.mem_def.mp hb)
  have m2 := nbrFun_some (Option.mem_def.mp hb2)
  rw [heq] at m1
  have htr := matchesPair_trans m1 m2
  rw [hR] at htr
  cases htr

theorem dkeys_offList_mem {g : BGraph α} {i : α} {k : α × α}
    (hk : k ∈ dkeys (offList g i)) : k.1 = i ∧ k.1 < k.2 := by
  unfold dkeys offList at hk
  obtain ⟨e, he, hke⟩ := List.mem_map.mp hk
  obtain ⟨j, _, hfj⟩ := List.mem_filterMap.mp he
  by_cases hij : i < j
  · rw [if_pos hij] at hfj
    have he2 : ((i, j), 2 * edgeWeight g i j) = e := Option.some.inj hfj
    rw [← he2] at hke
    rw [← hke]
    exact ⟨rfl, hij⟩
  · rw [if_neg hij] at hfj
    cases hfj

theorem dkeys_offList_nodup {g : BGraph α} (h : WF g) (i : α) :
    (dkeys (offList g i)).Nodup := by
  show List.Pairwise _ _
  unfold dkeys offList
  rw [List.map_filterMap]
  refine List.Pairwise.filterMap _ ?_ (neighbors_nodup h i)
  intro j1 j2 hne b hb b2 hb2
  intro heq
  have hb' := Option.mem_def.mp hb
  have hb2' := Option.mem_def.mp hb2
  by_cases h1 : i < j1
  · rw [if_pos h1] at hb'
    by_cases h2 : i < j2
    · rw [if_pos h2] at hb2'
      have e1 : (i, j1) = b := Option.some.inj (by simpa using hb')
      have e2 : (i, j2) = b2 := Option.some.inj (by simpa using hb2')
      rw [← e1, ← e2] at heq
      exact hne (congrArg Prod.snd heq)
    · rw [if_neg h2] at hb2'
      cases hb2'
  · rw [if_neg h1] at hb'
    cases hb'

theorem dkeys_append (A B : Qubo α) : dkeys (A ++ B) = dkeys A ++ dkeys B := by
  simp [dkeys]

theorem dkeys_flatMap (ns : List α) (f : α → Qubo α) :
    dkeys (ns.flatMap f) = ns.flatMap (fun i => dkeys (f i)) := by
  simp [dkeys, List.map_flatMap]

theorem dkeys_quboAlt_nodup {g : BGraph α} (h : WF g) :
    (dkeys (quboAlt g)).Nodup := by
  unfold quboAlt
  rw [dkeys_append, List.nodup_append]
  refine ⟨?_, ?_, ?_⟩
  · have hd : dkeys (g.nodes.map (fun i => ((i, i), diagVal g i)))
        = g.nodes.map (fun i => (i, i)) := by
      simp [dkeys, List.map_map, Function.comp]
    rw [hd]
    exact h.1.map (fun a b hab => congrArg Prod.fst hab)
  · rw [dkeys_flatMap, List.nodup_flatMap]
    refine ⟨fun i _ => dkeys_offList_nodup h i, ?_⟩
    refine List.Pairwise.imp ?_ h.1
    intro i1 i2 hne k hk1 hk2
    have m1 := (dkeys_offList_mem hk1).1
    have m2 := (dkeys_offList_mem hk2).1
    exact hne (m1.symm.trans m2)
  · intro a ha ha2
    have hd : dkeys (g.nodes.map (fun i => ((i, i), diagVal g i)))
        = g.nodes.map (fun i => (i, i)) := by
      simp [dkeys, List.map_map, Function.comp]
    rw [hd] at ha
    obtain ⟨i, _, hai⟩ := List.mem_map.mp ha
    rw [dkeys_flatMap] at ha2
    obtain ⟨i2, _, hk⟩ := List.mem_flatMap.mp ha2
    have := (dkeys_offList_mem hk).2
    rw [← hai] at this
    exact lt_irrefl i this

/-! ### Computing the coefficient sum -/

theorem dvals_append (A B : Qubo α) : dvals (A ++ B) = dvals A ++ dvals B := by
  simp [dvals]

theorem dvals_flatMap (ns : List α) (f : α → Qubo α) :
    dvals (ns.flatMap f) = ns.flatMap (fun i => dvals (f i)) := by
  simp [dvals, List.map_flatMap]

theorem sum_flatMapL (ns : List α) (f : α → List Int) :
    (ns.flatMap f).sum = (ns.map (fun i => (f i).sum)).sum := by
  induction ns with
  | nil => rfl
  | cons n t ih =>
    rw [List.flatMap_cons, List.sum_append, ih, List.map_cons, List.sum_cons]

theorem sum_map_neg {β : Type} (l : List β) (f : β → Int) :
    (l.map (fun x => - f x)).sum = - (l.map f).sum := by
  induction l with
  | nil => simp
  | cons x l ih =>
    rw [List.map_cons, List.sum_cons, ih, List.map_cons, List.sum_cons]
    ring

theorem sum_filterMapIf (i : α) (F : α → Int) :
    ∀ js : List α,
    (dvals (js.filterMap (fun j => if i < j then some ((i, j), F j) else none))).sum
      = (js.map (fun j => if i < j then F j else 0)).sum := by
  intro js
  induction js with
  | nil => rfl
  | cons j t ih =>
    by_cases hij : i < j
    · have hred : ((j :: t).filterMap
          (fun j => if i < j then some ((i, j), F j) else none))
          = ((i, j), F j)
            :: t.filterMap (fun j => if i < j then some ((i, j), F j) else none) := by
        simp [List.filterMap_cons, hij]
      rw [hred, dvals_cons, List.sum_cons, ih, List.map_cons, List.sum_cons,
        if_pos hij]
    · have hred : ((j :: t).filterMap
          (fun j => if i < j then some ((i, j), F j) else none))
          = t.filterMap (fun j => if i < j then some ((i, j), F j) else none) := by
        simp [List.filterMap_cons, hij]
      rw [hred, ih, List.map_cons, List.sum_cons, if_neg hij, zero_add]

theorem sum_iwsL {ns : List α} (hnd : ns.Nodup) :
    ∀ L : List (α × α × Int),
    (∀ e ∈ L, e.1 ∈ ns ∧ e.2.1 ∈ ns ∧ e.1 ≠ e.2.1) →
    (ns.map (fun i => iwsL L i)).sum = 2 * (L.map (fun e => e.2.2)).sum := by
  intro L
  induction L with
  | nil =>
    intro _
    have he : ns.map (fun i => iwsL ([] : List (α × α × Int)) i)
        = ns.map (fun _ => (0 : Int)) :=
      List.map_congr_left (fun i _ => rfl)
    rw [he, sum_map_zero]
    simp
  | cons e L ih =>
    intro hcond
    obtain ⟨ha, hb, hne⟩ := hcond e (List.mem_cons_self e L)
    have ihL := ih (fun x hx => hcond x (List.mem_cons_of_mem e hx))
    have hsplit : (fun i => iwsL (e :: L) i)
        = fun i => (if e.1 = i then e.2.2 else if e.2.1 = i then e.2.2 else 0)
            + iwsL L i := by
      funext i
      rw [iwsL_eq_mapSum, List.map_cons, List.sum_cons, ← iwsL_eq_mapSum]
    rw [hsplit, sum_map_add, ihL,
      sum_if_two_fn e.1 e.2.1 (fun _ => e.2.2) (fun _ => e.2.2) hnd ha hb hne,
      List.map_cons, List.sum_cons]
    ring

theorem sum_offL_aux {ns : List α} (hnd : ns.Nodup) :
    ∀ L : List (α × α × Int),
    (∀ e ∈ L, e.1 ∈ ns ∧ e.2.1 ∈ ns ∧ e.1 ≠ e.2.1) →
    (ns.map (fun i => (L.map (fun e =>
        if e.1 = i then (if i < e.2.1 then 2 * e.2.2 else 0)
        else if e.2.1 = i then (if i < e.1 then 2 * e.2.2 else 0) else 0)).sum)).sum
      = 2 * (L.map (fun e => e.2.2)).sum := by
  intro L
  induction L with
  | nil =>
    intro _
    have he : ns.map (fun i => (([] : List (α × α × Int)).map (fun e =>
        if e.1 = i then (if i < e.2.1 then 2 * e.2.2 else 0)
        else if e.2.1 = i then (if i < e.1 then 2 * e.2.2 else 0) else 0)).sum)
        = ns.map (fun _ => (0 : Int)) :=
      List.map_congr_left (fun i _ => rfl)
    rw [he, sum_map_zero]
    simp
  | cons e L ih =>
    intro hcond
    obtain ⟨ha, hb, hne⟩ := hcond e (List.mem_cons_self e L)
    have ihL := ih (fun x hx => hcond x (List.mem_cons_of_mem e hx))
    have hsplit : (fun i => ((e :: L).map (fun x =>
        if x.1 = i then (if i < x.2.1 then 2 * x.2.2 else 0)
        else if x.2.1 = i then (if i < x.1 then 2 * x.2.2 else 0) else 0)).sum)
        = fun i => (if e.1 = i then (if i < e.2.1 then 2 * e.2.2 else 0)
            else if e.2.1 = i then (if i < e.1 then 2 * e.2.2 else 0) else 0)
          + (L.map (fun x =>
            if x.1 = i then (if i < x.2.1 then 2 * x.2.2 else 0)
            else if x.2.1 = i then (if i < x.1 then 2 * x.2.2 else 0) else 0)).sum := by
      funext i
      rw [List.map_cons, List.sum_cons]
    rw [hsplit, sum_map_add, ihL,
      sum_if_two_fn e.1 e.2.1 (fun i => if i < e.2.1 then 2 * e.2.2 else 0)
        (fun i => if i < e.1 then 2 * e.2.2 else 0) hnd ha hb hne,
      List.map_cons, List.sum_cons]
    rcases lt_or_gt_of_ne hne with hlt | hgt
    · rw [if_pos hlt, if_neg (asymm hlt)]
      ring
    · rw [if_neg (asymm hgt), if_pos hgt]
      ring

theorem sum_offL {ns : List α} (hnd : ns.Nodup)
    (L : List (α × α × Int))
    (hpw : L.Pairwise (fun e1 e2 => matchesPair e1.1 e1.2.1 e2 = false))
    (hcond : ∀ e ∈ L, e.1 ∈ ns ∧ e.2.1 ∈ ns ∧ e.1 ≠ e.2.1) :
    (ns.map (fun i =>
      ((nbrL L i).map (fun j => if i < j then 2 * wtL L i j else 0)).sum)).sum
      = 2 * (L.map (fun e => e.2.2)).sum := by
  have hconv : ns.map (fun i =>
      ((nbrL L i).map (fun j => if i < j then 2 * wtL L i j else 0)).sum)
      = ns.map (fun i => (L.map (fun e =>
          if e.1 = i then (if i < e.2.1 then 2 * e.2.2 else 0)
          else if e.2.1 = i then (if i < e.1 then 2 * e.2.2 else 0) else 0)).sum) :=
    List.map_congr_left (fun i _ =>
      nbr_sum_eq_edge_sum i (fun j w => if i < j then 2 * w else 0) hpw)
  rw [hconv]
  exact sum_offL_aux hnd L hcond

theorem sum_dvals_buildQubo_zero {g : BGraph α} (h : WF g) (hsl : selfLoopFree g) :
    (dvals (buildQubo g)).sum = 0 := by
  have hcond : ∀ e ∈ g.edges, e.1 ∈ g.nodes ∧ e.2.1 ∈ g.nodes ∧ e.1 ≠ e.2.1 := by
    intro e he
    obtain ⟨h1, h2⟩ := h.2.2 e he
    exact ⟨h1, h2, hsl e he⟩
  have hext : (dvals (buildQubo g)).sum = (dvals (quboAlt g)).sum :=
    sum_dvals_ext _ _ (dkeys_nodup_buildQubo h.1) (dkeys_quboAlt_nodup h)
      (fun k => (dlookup_quboAlt g k).symm)
  rw [hext]
  unfold quboAlt
  rw [dvals_append, List.sum_append]
  have hdiag : (dvals (g.nodes.map (fun i => ((i, i), diagVal g i)))).sum
      = - (2 * totalWeight g) := by
    have h1 : dvals (g.nodes.map (fun i => ((i, i), diagVal g i)))
        = g.nodes.map (fun i => diagVal g i) := by
      simp [dvals, List.map_map, Function.comp]
    have h2 : g.nodes.map (fun i => diagVal g i)
        = g.nodes.map (fun i => - incidentWeightSum g i) :=
      List.map_congr_left (fun i _ => diagVal_eq_iws h i)
    rw [h1, h2, sum_map_neg]
    have h3 : (g.nodes.map (fun i => incidentWeightSum g i)).sum
        = 2 * totalWeight g :=
      sum_iwsL h.1 g.edges hcond
    rw [h3]
  have hoff : (dvals (g.nodes.flatMap (offList g))).sum = 2 * totalWeight g := by
    rw [dvals_flatMap, sum_flatMapL]
    have h1 : g.nodes.map (fun i => (dvals (offList g i)).sum)
        = g.nodes.map (fun i =>
            ((neighbors g i).map (fun j => if i < j then 2 * edgeWeight g i j else 0)).sum) :=
      List.map_congr_left (fun i _ =>
        sum_filterMapIf i (fun j => 2 * edgeWeight g i j) (neighbors g i))
    rw [h1]
    exact sum_offL h.1 g.edges h.2.1 hcond
  rw [hdiag, hoff]
  ring

/-! ### Overwrite semantics of repeated `add_trade_desire` -/

theorem addTradeDesire_matched_weight {g : BGraph α} (a b : α) :
    ∀ e ∈ (addTradeDesire a b g).edges, matchesPair a b e = true → e.2.2 = 1 := by
  intro e he hm
  by_cases hp : g.edges.any (matchesPair a b) = true
  · rw [show (addTradeDesire a b g).edges = _ from addEdge_edges_pos 1 hp] at he
    obtain ⟨e0, he0, rfl⟩ := List.mem_map.mp he
    by_cases hm0 : matchesPair a b e0 = true
    · rw [if_pos hm0]
    · rw [matchesPair_overwrite] at hm
      exact absurd hm hm0
  · have hp2 : g.edges.any (matchesPair a b) = false := by
      revert hp
      cases g.edges.any (matchesPair a b) <;> simp
    rw [show (addTradeDesire a b g).edges = _ from addEdge_edges_neg 1 hp2] at he
    rcases List.mem_append.mp he with he | he
    · exact absurd hm ((List.any_eq_false.mp hp2) e he)
    · rw [List.mem_singleton] at he
      subst he
      rfl

theorem addTradeDesire_hasEdge (a b : α) (g : BGraph α) :
    hasEdge (addTradeDesire a b g) a b = true := by
  rw [hasEdge_iff]
  by_cases hp : g.edges.any (matchesPair a b) = true
  · rw [show (addTradeDesire a b g).edges = _ from addEdge_edges_pos 1 hp]
    obtain ⟨e0, he0, hm0⟩ := List.any_eq_true.mp hp
    refine ⟨_, List.mem_map_of_mem _ he0, ?_⟩
    rw [matchesPair_overwrite]
    exact hm0
  · have hp2 : g.edges.any (matchesPair a b) = false := by
      revert hp
      cases g.edges.any (matchesPair a b) <;> simp
    rw [show (addTradeDesire a b g).edges = _ from addEdge_edges_neg 1 hp2]
    refine ⟨(a, b, 1), ?_, ?_⟩
    · exact List.mem_append.mpr (Or.inr (List.mem_singleton.mpr rfl))
    · rw [matchesPair_iff]
      exact Or.inl ⟨rfl, rfl⟩

theorem addTradeDesire_idem (a b : α) (g : BGraph α) :
    addTradeDesire a b (addTradeDesire a b g) = addTradeDesire a b g := by
  have hpres : (addTradeDesire a b g).edges.any (matchesPair a b) = true := by
    obtain ⟨e, he, hm⟩ := hasEdge_iff.mp (addTradeDesire_hasEdge a b g)
    exact List.any_eq_true.mpr ⟨e, he, hm⟩
  have ha : a ∈ (addTradeDesire a b g).nodes :=
    mem_addNode.mpr (Or.inr (addNode_mem_self a g.nodes))
  have hb : b ∈ (addTradeDesire a b g).nodes :=
    addNode_mem_self b (addNode a g.nodes)
  have hnodes : (addTradeDesire a b (addTradeDesire a b g)).nodes
      = (addTradeDesire a b g).nodes := by
    show addNode b (addNode a (addTradeDesire a b g).nodes)
        = (addTradeDesire a b g).nodes
    rw [addNode_of_mem ha, addNode_of_mem hb]
  have hedges : (addTradeDesire a b (addTradeDesire a b g)).edges
      = (addTradeDesire a b g).edges := by
    show (addEdge a b 1 (addTradeDesire a b g)).edges = (addTradeDesire a b g).edges
    rw [addEdge_edges_pos 1 hpres]
    have hid : ∀ e ∈ (addTradeDesire a b g).edges,
        (if matchesPair a b e then (e.1, e.2.1, (1 : Int)) else e) = e := by
      intro e he
      by_cases hm : matchesPair a b e = true
      · rw [if_pos hm]
        have h1 : e.2.2 = 1 := addTradeDesire_matched_weight a b e he hm
        rw [← h1]
      · rw [if_neg hm]
    rw [List.map_congr_left hid]
    simp
  have heta : addTradeDesire a b (addTradeDesire a b g)
      = BGraph.mk (addTradeDesire a b (addTradeDesire a b g)).nodes
          (addTradeDesire a b (addTradeDesire a b g)).edges := rfl
  rw [heta, hnodes, hedges]

theorem addTradeDesire_iterate (a b : α) (g : BGraph α) :
    ∀ n : Nat,
    (fun g => addTradeDesire a b g)^[n] (addTradeDesire a b g)
      = addTradeDesire a b g := by
  intro n
  induction n with
  | zero => rfl
  | succ m ih =>
    rw [Function.iterate_succ_apply]
    show (fun g => addTradeDesire a b g)^[m]
        (addTradeDesire a b (addTradeDesire a b g)) = _
    rw [addTradeDesire_idem]
    exact ih

theorem length_filter_matched (a b : α) :
    ∀ {L : List (α × α × Int)},
    L.Pairwise (fun e1 e2 => matchesPair e1.1 e1.2.1 e2 = false) →
    (L.filter (matchesPair a b)).length
      = if L.any (matchesPair a b) = true then 1 else 0 := by
  intro L
  induction L with
  | nil => intro _; simp
  | cons e L ih =>
    intro hpw
    rw [List.pairwise_cons] at hpw
    obtain ⟨hhead, htail⟩ := hpw
    by_cases hm : matchesPair a b e = true
    · have hL : ∀ e2 ∈ L, matchesPair a b e2 = false := by
        intro e2 he2
        by_cases hm2 : matchesPair a b e2 = true
        · have htr := matchesPair_trans hm hm2
          rw [hhead e2 he2] at htr
          cases htr
        · revert hm2
          cases matchesPair a b e2 <;> simp
      have hfl : L.filter (matchesPair a b) = [] :=
        List.filter_eq_nil_iff.mpr (fun x hx => by rw [hL x hx]; simp)
      simp [List.filter_cons, List.any_cons, hm, hfl]
    · have hm2 : matchesPair a b e = false := by
        revert hm
        cases matchesPair a b e <;> simp
      have hfc : (e :: L).filter (matchesPair a b) = L.filter (matchesPair a b) := by
        simp [List.filter_cons, hm2]
      have hac : (e :: L).any (matchesPair a b) = L.any (matchesPair a b) := by
        simp [List.any_cons, hm2]
      rw [hfc, hac, ih htail]

theorem count_pair_addTradeDesire {g : BGraph α} (h : WF g) (a b : α) :
    ((addTradeDesire a b g).edges.filter (matchesPair a b)).length = 1 := by
  have hWF1 := WF_addTradeDesire a b h
  rw [length_filter_matched a b hWF1.2.1]
  have hpres : (addTradeDesire a b g).edges.any (matchesPair a b) = true := by
    obtain ⟨e, he, hm⟩ := hasEdge_iff.mp (addTradeDesire_hasEdge a b g)
    exact List.any_eq_true.mpr ⟨e, he, hm⟩
  rw [if_pos hpres]

theorem edgeWeight_addTradeDesire_self {g : BGraph α} (h : WF g) (a b : α) :
    edgeWeight (addTradeDesire a b g) a b = 1 := by
  have hWF1 := WF_addTradeDesire a b h
  obtain ⟨e, he, hm⟩ := hasEdge_iff.mp (addTradeDesire_hasEdge a b g)
  rw [edgeWeight_of_mem hWF1 he hm]
  exact addTradeDesire_matched_weight a b e he hm

/-! ### Undirectedness of `add_trade_desire` -/

theorem matchesPair_args_swap (a b : α) : matchesPair a b = matchesPair b a :=
  funext (fun e => matchesPair_comm a b e)

theorem addTradeDesire_nodes_mem (a b : α) (g : BGraph α) (x : α) :
    x ∈ (addTradeDesire a b g).nodes ↔ x ∈ (addTradeDesire b a g).nodes := by
  show x ∈ addNode b (addNode a g.nodes) ↔ x ∈ addNode a (addNode b g.nodes)
  rw [mem_addNode, mem_addNode, mem_addNode, mem_addNode]
  tauto

theorem addTradeDesire_comm_edges (a b : α) (g : BGraph α) :
    (addTradeDesire b a g).edges = (addTradeDesire a b g).edges
    ∨ ((addTradeDesire a b g).edges = g.edges ++ [(a, b, 1)]
        ∧ (addTradeDesire b a g).edges = g.edges ++ [(b, a, 1)]) := by
  by_cases hp : g.edges.any (matchesPair a b) = true
  · left
    have hp2 : g.edges.any (matchesPair b a) = true := by
      rw [← matchesPair_args_swap]
      exact hp
    rw [show (addTradeDesire b a g).edges = _ from addEdge_edges_pos 1 hp2,
      show (addTradeDesire a b g).edges = _ from addEdge_edges_pos 1 hp,
      matchesPair_args_swap a b]
  · have hp2 : g.edges.any (matchesPair a b) = false := by
      revert hp
      cases g.edges.any (matchesPair a b) <;> simp
    have hp3 : g.edges.any (matchesPair b a) = false := by
      rw [← matchesPair_args_swap]
      exact hp2
    exact Or.inr ⟨addEdge_edges_neg 1 hp2, addEdge_edges_neg 1 hp3⟩

theorem nbrL_append (L1 L2 : List (α × α × Int)) (i : α) :
    nbrL (L1 ++ L2) i = nbrL L1 i ++ nbrL L2 i := by
  simp [nbrL]

theorem nbrL_pair_swap (a b : α) (w : Int) (i : α) :
    nbrL [(a, b, w)] i = nbrL [(b, a, w)] i := by
  unfold nbrL
  by_cases h1 : a = i
  · by_cases h2 : b = i
    · have hab : a = b := h1.trans h2.symm
      simp [List.filterMap, h1, h2, hab]
    · simp [List.filterMap, h1, h2]
  · by_cases h2 : b = i
    · simp [List.filterMap, h1, h2]
    · simp [List.filterMap, h1, h2]

theorem neighbors_addTradeDesire_comm (a b : α) (g : BGraph α) (i : α) :
    neighbors (addTradeDesire a b g) i = neighbors (addTradeDesire b a g) i := by
  rcases addTradeDesire_comm_edges a b g with h | ⟨h1, h2⟩
  · show nbrL (addTradeDesire a b g).edges i = nbrL (addTradeDesire b a g).edges i
    rw [h]
  · show nbrL (addTradeDesire a b g).edges i = nbrL (addTradeDesire b a g).edges i
    rw [h1, h2, nbrL_append, nbrL_append, nbrL_pair_swap a b 1 i]

theorem wtL_swap_last (L : List (α × α × Int)) (a b : α) (w : Int) (i j : α) :
    wtL (L ++ [(a, b, w)]) i j = wtL (L ++ [(b, a, w)]) i j := by
  unfold wtL
  rw [List.find?_append, List.find?_append]
  cases hf : L.find? (matchesPair i j) with
  | some e => simp [Option.or]
  | none =>
    simp only [Option.none_or]
    by_cases hm : matchesPair i j (a, b, w) = true
    · have hm2 : matchesPair i j (b, a, w) = true := by
        rw [← matchesPair_swapEdge i j a b w w]
        exact hm
      simp [List.find?, hm, hm2]
    · have hm1 : matchesPair i j (a, b, w) = false := by
        revert hm
        cases matchesPair i j (a, b, w) <;> simp
      have hm2 : matchesPair i j (b, a, w) = false := by
        rw [← matchesPair_swapEdge i j a b w w]
        exact hm1
      simp [List.find?, hm1, hm2]

theorem edgeWeight_addTradeDesire_comm (a b : α) (g : BGraph α) (i j : α) :
    edgeWeight (addTradeDesire a b g) i j = edgeWeight (addTradeDesire b a g) i j := by
  rcases addTradeDesire_comm_edges a b g with h | ⟨h1, h2⟩
  · show wtL (addTradeDesire a b g).edges i j = wtL (addTradeDesire b a g).edges i j
    rw [h]
  · show wtL (addTradeDesire a b g).edges i j = wtL (addTradeDesire b a g).edges i j
    rw [h1, h2]
    exact wtL_swap_last g.edges a b 1 i j

theorem hasEdge_addTradeDesire_comm (a b : α) (g : BGraph α) (i j : α) :
    hasEdge (addTradeDesire a b g) i j = hasEdge (addTradeDesire b a g) i j := by
  rcases addTradeDesire_comm_edges a b g with h | ⟨h1, h2⟩
  · show (addTradeDesire a b g).edges.any (matchesPair i j)
        = (addTradeDesire b a g).edges.any (matchesPair i j)
    rw [h]
  · show (addTradeDesire a b g).edges.any (matchesPair i j)
        = (addTradeDesire b a g).edges.any (matchesPair i j)
    rw [h1, h2, List.any_append, List.any_append]
    have hs : ([((a : α), b, (1 : Int))].any (matchesPair i j))
        = ([((b : α), a, (1 : Int))].any (matchesPair i j)) := by
      simp only [List.any_cons, List.any_nil]
      rw [matchesPair_swapEdge i j a b 1 1]
    rw [hs]

theorem diagVal_addTradeDesire_comm (a b : α) (g : BGraph α) (i : α) :
    diagVal (addTradeDesire a b g) i = diagVal (addTradeDesire b a g) i := by
  unfold diagVal
  rw [neighbors_addTradeDesire_comm a b g i]
  have hmap : (neighbors (addTradeDesire b a g) i).map
      (fun j => edgeWeight (addTradeDesire a b g) i j)
      = (neighbors (addTradeDesire b a g) i).map
        (fun j => edgeWeight (addTradeDesire b a g) i j) :=
    List.map_congr_left (fun j _ => edgeWeight_addTradeDesire_comm a b g i j)
  rw [hmap]

theorem buildQubo_addTradeDesire_comm (a b : α) (g : BGraph α) (p : α × α) :
    dlookup (buildQubo (addTradeDesire a b g)) p
      = dlookup (buildQubo (addTradeDesire b a g)) p := by
  obtain ⟨x, y⟩ := p
  rw [buildQubo_lookup, buildQubo_lookup]
  by_cases hxy : x = y
  · subst hxy
    rw [if_pos rfl, if_pos rfl]
    by_cases hx : x ∈ (addTradeDesire a b g).nodes
    · have hx2 : x ∈ (addTradeDesire b a g).nodes :=
        (addTradeDesire_nodes_mem a b g x).mp hx
      rw [if_pos hx, if_pos hx2, diagVal_addTradeDesire_comm a b g x]
    · have hx2 : x ∉ (addTradeDesire b a g).nodes :=
        fun hh => hx ((addTradeDesire_nodes_mem a b g x).mpr hh)
      rw [if_neg hx, if_neg hx2]
  · rw [if_neg hxy, if_neg hxy]
    by_cases ho : x ∈ (addTradeDesire a b g).nodes
        ∧ y ∈ neighbors (addTradeDesire a b g) x ∧ x < y
    · obtain ⟨h1, h2, h3⟩ := ho
      have h1b := (addTradeDesire_nodes_mem a b g x).mp h1
      have h2b : y ∈ neighbors (addTradeDesire b a g) x := by
        rw [← neighbors_addTradeDesire_comm a b g x]
        exact h2
      rw [if_pos ⟨h1, h2, h3⟩, if_pos ⟨h1b, h2b, h3⟩,
        edgeWeight_addTradeDesire_comm a b g x y]
    · have ho2 : ¬ (x ∈ (addTradeDesire b a g).nodes
          ∧ y ∈ neighbors (addTradeDesire b a g) x ∧ x < y) := by
        rintro ⟨h1, h2, h3⟩
        refine ho ⟨(addTradeDesire_nodes_mem a b g x).mpr h1, ?_, h3⟩
        rw [neighbors_addTradeDesire_comm a b g x]
        exact h2
      rw [if_neg ho, if_neg ho2]

/-! ## Claim theorems -/

/-- C1: For every graph state reachable by `add_trade_desire` calls, the QUBO
returned by `build_qubo` has, for every node `i`, a diagonal entry `(i, i)`
whose coefficient equals the negated sum of the weights of all edges incident
to `i` (zero for a node with no incident edges, since the empty sum is 0). -/
theorem diag_entry_eq_neg_incident_sum {g : BGraph α} (h : Reachable g)
    (i : α) (hi : i ∈ g.nodes) :
    dlookup (buildQubo g) (i, i) = some (- incidentWeightSum g i) := by
  have hWF := h.wf
  have hc := buildQubo_lookup g i i
  rw [if_pos rfl, if_pos hi] at hc
  rw [hc, diagVal_eq_iws hWF i]

theorem diag_entry_eq_neg_incident_sum_check :
    Reachable gPair ∧ (0 ∈ gPair.nodes)
    ∧ dlookup (buildQubo gPair) (0, 0) = some (- incidentWeightSum gPair 0) :=
  ⟨⟨[(0, 1)], rfl⟩, by decide,
    diag_entry_eq_neg_incident_sum ⟨[(0, 1)], rfl⟩ 0 (by decide)⟩

/-- C2: For every (well-formed) graph and every edge `(i, j)` with weight `w`,
the QUBO has exactly one off-diagonal entry for the unordered pair `{i, j}`,
keyed with the smaller endpoint first under the total order, with coefficient
`2 * w`; and for every unordered pair of distinct nodes with no edge between
them there is no off-diagonal entry. -/
theorem offdiag_entry_iff_edge {g : BGraph α} (h : WF g) :
    (∀ e ∈ g.edges, e.1 ≠ e.2.1 →
      ((buildQubo g).filter
          (fun q => decide (q.1 = (e.1, e.2.1) ∨ q.1 = (e.2.1, e.1)))).length = 1
      ∧ (e.1 < e.2.1 →
          dlookup (buildQubo g) (e.1, e.2.1) = some (2 * e.2.2)
          ∧ dlookup (buildQubo g) (e.2.1, e.1) = none)
      ∧ (e.2.1 < e.1 →
          dlookup (buildQubo g) (e.2.1, e.1) = some (2 * e.2.2)
          ∧ dlookup (buildQubo g) (e.1, e.2.1) = none))
    ∧ (∀ x y : α, x ≠ y → (∀ e ∈ g.edges, matchesPair x y e = false) →
      ((buildQubo g).filter
          (fun q => decide (q.1 = (x, y) ∨ q.1 = (y, x)))).length = 0) := by
  have hQnd := dkeys_nodup_buildQubo h.1
  constructor
  · intro e he hne
    obtain ⟨ha, hb⟩ := h.2.2 e he
    have hn1 : e.2.1 ∈ neighbors g e.1 :=
      mem_neighbors.mpr ⟨e, he, matchesPair_self e⟩
    have hm2 : matchesPair e.2.1 e.1 e = true := by
      rw [matchesPair_iff]
      exact Or.inr ⟨rfl, rfl⟩
    have hn2 : e.1 ∈ neighbors g e.2.1 := mem_neighbors.mpr ⟨e, he, hm2⟩
    have hw1 : edgeWeight g e.1 e.2.1 = e.2.2 :=
      edgeWeight_of_mem h he (matchesPair_self e)
    have hw2 : edgeWeight g e.2.1 e.1 = e.2.2 := edgeWeight_of_mem h he hm2
    have hl1 : dlookup (buildQubo g) (e.1, e.2.1)
        = if e.1 < e.2.1 then some (2 * e.2.2) else none := by
      rw [buildQubo_lookup, if_neg hne]
      by_cases hlt : e.1 < e.2.1
      · rw [if_pos ⟨ha, hn1, hlt⟩, hw1, if_pos hlt]
      · rw [if_neg (fun hc => hlt hc.2.2), if_neg hlt]
    have hne2 : e.2.1 ≠ e.1 := fun hh => hne hh.symm
    have hl2 : dlookup (buildQubo g) (e.2.1, e.1)
        = if e.2.1 < e.1 then some (2 * e.2.2) else none := by
      rw [buildQubo_lookup, if_neg hne2]
      by_cases hlt : e.2.1 < e.1
      · rw [if_pos ⟨hb, hn2, hlt⟩, hw2, if_pos hlt]
      · rw [if_neg (fun hc => hlt hc.2.2), if_neg hlt]
    have hkk : ((e.1, e.2.1) : α × α) ≠ (e.2.1, e.1) := by
      intro hh
      exact hne (congrArg Prod.fst hh)
    refine ⟨?_, ?_, ?_⟩
    · rw [length_filter_orKey _ _ _ hkk, length_filter_key _ _ hQnd,
        length_filter_key _ _ hQnd]
      rcases lt_or_gt_of_ne hne with hlt | hgt
      · have m1 : ((e.1, e.2.1) : α × α) ∈ dkeys (buildQubo g) :=
          (dlookup_isSome _ _).mp (by rw [hl1, if_pos hlt]; rfl)
        have m2 : ((e.2.1, e.1) : α × α) ∉ dkeys (buildQubo g) := by
          intro hm
          have hs := (dlookup_isSome _ _).mpr hm
          rw [hl2, if_neg (asymm hlt)] at hs
          cases hs
        rw [if_pos m1, if_neg m2]
      · have m1 : ((e.1, e.2.1) : α × α) ∉ dkeys (buildQubo g) := by
          intro hm
          have hs := (dlookup_isSome _ _).mpr hm
          rw [hl1, if_neg (asymm hgt)] at hs
          cases hs
        have m2 : ((e.2.1, e.1) : α × α) ∈ dkeys (buildQubo g) :=
          (dlookup_isSome _ _).mp (by rw [hl2, if_pos hgt]; rfl)
        rw [if_neg m1, if_pos m2]
    · intro hlt
      exact ⟨by rw [hl1, if_pos hlt], by rw [hl2, if_neg (asymm hlt)]⟩
    · intro hgt
      exact ⟨by rw [hl2, if_pos hgt], by rw [hl1, if_neg (asymm hgt)]⟩
  · intro x y hxy hnone
    have hy : y ∉ neighbors g x := by
      intro hmem
      obtain ⟨e, he, hm⟩ := mem_neighbors.mp hmem
      rw [hnone e he] at hm
      cases hm
    have hx : x ∉ neighbors g y := by
      intro hmem
      obtain ⟨e, he, hm⟩ := mem_neighbors.mp hmem
      rw [matchesPair_comm y x e, hnone e he] at hm
      cases hm
    have hyx : y ≠ x := fun hh => hxy hh.symm
    have hl1 : dlookup (buildQubo g) (x, y) = none := by
      rw [buildQubo_lookup, if_neg hxy, if_neg (fun hc => hy hc.2.1)]
    have hl2 : dlookup (buildQubo g) (y, x) = none := by
      rw [buildQubo_lookup, if_neg hyx, if_neg (fun hc => hx hc.2.1)]
    have hkk : ((x, y) : α × α) ≠ (y, x) := fun hh => hxy (congrArg Prod.fst hh)
    rw [length_filter_orKey _ _ _ hkk, length_filter_key _ _ hQnd,
      length_filter_key _ _ hQnd]
    have m1 : ((x, y) : α × α) ∉ dkeys (buildQubo g) := by
      intro hm
      have hs := (dlookup_isSome _ _).mpr hm
      rw [hl1] at hs
      cases hs
    have m2 : ((y, x) : α × α) ∉ dkeys (buildQubo g) := by
      intro hm
      have hs := (dlookup_isSome _ _).mpr hm
      rw [hl2] at hs
      cases hs
    rw [if_neg m1, if_neg m2]

theorem offdiag_entry_iff_edge_check :
    WF gPair
    ∧ dlookup (buildQubo gPair) (0, 1) = some (2 * 1)
    ∧ dlookup (buildQubo gPair) (1, 0) = none :=
  ⟨by decide,
    (((@offdiag_entry_iff_edge Nat _ gPair (by decide)).1 (0, 1, 1) (by decide)
        (by decide)).2.1 (by decide)).1,
    (((@offdiag_entry_iff_edge Nat _ gPair (by decide)).1 (0, 1, 1) (by decide)
        (by decide)).2.1 (by decide)).2⟩

/-- C3: For the graph built from exactly the four insertions (A,B), (B,C),
(C,D), (D,A) — a 4-cycle — `build_qubo` returns a QUBO whose diagonal entry
is -2 for each of the four nodes, whose off-diagonal entry is 2 for each of
the four edges (keyed with the smaller endpoint first, so the edge (D,A) is
keyed (A,D)), and which contains no entry for the pairs (A,C) or (B,D). -/
theorem fourCycle_qubo :
    (dlookup (buildQubo gCycle) ('A', 'A') = some (-2)
      ∧ dlookup (buildQubo gCycle) ('B', 'B') = some (-2)
      ∧ dlookup (buildQubo gCycle) ('C', 'C') = some (-2)
      ∧ dlookup (buildQubo gCycle) ('D', 'D') = some (-2))
    ∧ (dlookup (buildQubo gCycle) ('A', 'B') = some 2
      ∧ dlookup (buildQubo gCycle) ('B', 'C') = some 2
      ∧ dlookup (buildQubo gCycle) ('C', 'D') = some 2
      ∧ dlookup (buildQubo gCycle) ('A', 'D') = some 2)
    ∧ (dlookup (buildQubo gCycle) ('A', 'C') = none
      ∧ dlookup (buildQubo gCycle) ('C', 'A') = none
      ∧ dlookup (buildQubo gCycle) ('B', 'D') = none
      ∧ dlookup (buildQubo gCycle) ('D', 'B') = none) := by
  decide

/-- C4: `build_qubo` is a pure, deterministic function of the current graph
state: the method only reads `self.G` (lines 44-53 contain no write), so in
the state-passing embedding the post-state graph equals the pre-state graph,
and a second call on that unchanged state returns an equal QUBO mapping. -/
theorem buildQubo_pure (g : BGraph α) :
    (buildQuboS g).2 = g
    ∧ (buildQuboS ((buildQuboS g).2)).1 = (buildQuboS g).1 :=
  ⟨rfl, rfl⟩

/-- C5: Edges are undirected: `add_trade_desire(a, b)` and
`add_trade_desire(b, a)` produce the same graph state — the same node set,
the same adjacency and edge weights, and the same neighbor lists (the
embedding additionally records dict insertion order, which the notion of
graph state abstracts over) — so the QUBO built from either is the same
mapping. -/
theorem trade_desire_undirected (a b : α) (g : BGraph α) :
    (∀ x, x ∈ (addTradeDesire a b g).nodes ↔ x ∈ (addTradeDesire b a g).nodes)
    ∧ (∀ i j, hasEdge (addTradeDesire a b g) i j
        = hasEdge (addTradeDesire b a g) i j)
    ∧ (∀ i j, edgeWeight (addTradeDesire a b g) i j
        = edgeWeight (addTradeDesire b a g) i j)
    ∧ (∀ i, neighbors (addTradeDesire a b g) i
        = neighbors (addTradeDesire b a g) i)
    ∧ (∀ p, dlookup (buildQubo (addTradeDesire a b g)) p
        = dlookup (buildQubo (addTradeDesire b a g)) p) :=
  ⟨addTradeDesire_nodes_mem a b g, hasEdge_addTradeDesire_comm a b g,
    edgeWeight_addTradeDesire_comm a b g, neighbors_addTradeDesire_comm a b g,
    buildQubo_addTradeDesire_comm a b g⟩

/-- C6: `add_trade_desire` is idempotent with overwrite semantics: `n >= 1`
identical calls leave the graph in the state reached after one call, with
exactly one edge between the pair, of weight 1. -/
theorem addTradeDesire_idem_n {g : BGraph α} (a b : α) (h : WF g) (n : Nat)
    (hn : 1 ≤ n) :
    (fun g => addTradeDesire a b g)^[n] g = addTradeDesire a b g
    ∧ ((addTradeDesire a b g).edges.filter (matchesPair a b)).length = 1
    ∧ edgeWeight (addTradeDesire a b g) a b = 1 := by
  refine ⟨?_, count_pair_addTradeDesire h a b, edgeWeight_addTradeDesire_self h a b⟩
  obtain ⟨m, rfl⟩ : ∃ m, n = m + 1 := ⟨n - 1, (Nat.succ_pred_eq_of_pos hn).symm⟩
  rw [Function.iterate_succ_apply]
  show (fun g => addTradeDesire a b g)^[m] (addTradeDesire a b g)
      = addTradeDesire a b g
  exact addTradeDesire_iterate a b g m

theorem addTradeDesire_idem_n_check :
    WF (emptyGraph : BGraph Nat) ∧ 1 ≤ 3
    ∧ ((fun g => addTradeDesire 0 1 g)^[3] (emptyGraph : BGraph Nat)
          = addTradeDesire 0 1 emptyGraph
      ∧ ((addTradeDesire 0 1 (emptyGraph : BGraph Nat)).edges.filter
          (matchesPair 0 1)).length = 1
      ∧ edgeWeight (addTradeDesire 0 1 (emptyGraph : BGraph Nat)) 0 1 = 1) :=
  ⟨by decide, by decide,
    @addTradeDesire_idem_n Nat _ emptyGraph 0 1 (by decide) 3 (by decide)⟩

/-- C7: Given the best sample A:1, B:0, C:1, D:0 and its energy, the report
prints "A: Trade", "B: Keep", "C: Trade", "D: Keep" in that node order — a
node is labeled Trade exactly when its bit is 1 and Keep when it is 0 —
followed by the energy text unmodified. -/
theorem render_report_scenario (energyText : String) :
    renderReport [("A", 1), ("B", 0), ("C", 1), ("D", 0)] energyText
      = ["\nSolution found:", "--------------",
         "A: Trade", "B: Keep", "C: Trade", "D: Keep",
         "\nSolution energy: " ++ energyText] := by
  rfl

/-- C8: When no token is configured, `load_config` raises a `ValueError`
whose message contains "DWAVE_TOKEN", and the program prints a
configuration-error message and terminates on the handler branch that
performs no graph construction or QUBO work. -/
theorem missing_token_config_error (env : String → Option String)
    (solve : Qubo String → List (String × Int) × String)
    (h : env "DWAVE_TOKEN" = none) :
    loadConfig env = Except.error "DWAVE_TOKEN not found in .env file"
    ∧ mentionsToken "DWAVE_TOKEN not found in .env file"
    ∧ runMain env solve
        = RunResult.configError
            ["Configuration error: DWAVE_TOKEN not found in .env file"] := by
  have hl : loadConfig env = Except.error "DWAVE_TOKEN not found in .env file" := by
    unfold loadConfig
    rw [h]
  refine ⟨hl, ⟨[], (" not found in .env file").toList, rfl⟩, ?_⟩
  unfold runMain
  rw [hl]
  rfl

theorem missing_token_config_error_check :
    ((fun _ : String => (none : Option String)) "DWAVE_TOKEN" = none)
    ∧ (loadConfig (fun _ => none)
        = Except.error "DWAVE_TOKEN not found in .env file"
      ∧ mentionsToken "DWAVE_TOKEN not found in .env file"
      ∧ runMain (fun _ => none) (fun _ => ([], ""))
          = RunResult.configError
              ["Configuration error: DWAVE_TOKEN not found in .env file"]) :=
  ⟨rfl, missing_token_config_error (fun _ => none) (fun _ => ([], "")) rfl⟩

/-- C9: Self-loop at the public interface: after `add_trade_desire(a, a)` on
a state with no prior edge on `{a, a}`, `build_qubo` counts the self-loop's
weight once in node `a`'s diagonal entry (contributing -1) and emits no
quadratic off-diagonal entry for the pair `(a, a)` — the strict order test
`i < j` never holds for equal endpoints, so the only `(a, a)`-keyed entry is
the diagonal one. -/
theorem self_loop_diag_only {g : BGraph α} (a : α) (h : WF g)
    (hno : hasEdge g a a = false) :
    dlookup (buildQubo (addTradeDesire a a g)) (a, a)
      = some (- (incidentWeightSum g a + 1))
    ∧ ((buildQubo (addTradeDesire a a g)).filter
        (fun q => decide (q.1 = (a, a)))).length = 1 := by
  have hW1 := WF_addTradeDesire a a h
  have ha : a ∈ (addTradeDesire a a g).nodes :=
    addNode_mem_self a (addNode a g.nodes)
  have hedges : (addTradeDesire a a g).edges = g.edges ++ [(a, a, 1)] :=
    addEdge_edges_neg 1 hno
  have hiws : incidentWeightSum (addTradeDesire a a g) a
      = incidentWeightSum g a + 1 := by
    show iwsL (addTradeDesire a a g).edges a = iwsL g.edges a + 1
    rw [hedges]
    unfold iwsL
    rw [List.filter_append, List.map_append, List.sum_append]
    have hone : (([((a : α), a, (1 : Int))].filter
        (fun e => decide (e.1 = a ∨ e.2.1 = a))).map (fun e => e.2.2)).sum = 1 := by
      have hc : (((a : α), a, (1 : Int)).1 = a ∨ ((a : α), a, (1 : Int)).2.1 = a) :=
        Or.inl rfl
      simp [List.filter_cons, hc]
    rw [hone]
  have hlook : dlookup (buildQubo (addTradeDesire a a g)) (a, a)
      = some (- (incidentWeightSum g a + 1)) := by
    have hc := buildQubo_lookup (addTradeDesire a a g) a a
    rw [if_pos rfl, if_pos ha] at hc
    rw [hc, diagVal_eq_iws hW1 a, hiws]
  refine ⟨hlook, ?_⟩
  rw [length_filter_key _ _ (dkeys_nodup_buildQubo hW1.1)]
  have hmem : ((a, a) : α × α) ∈ dkeys (buildQubo (addTradeDesire a a g)) :=
    (dlookup_isSome _ _).mp (by rw [hlook]; rfl)
  rw [if_pos hmem]

theorem self_loop_diag_only_check :
    WF (emptyGraph : BGraph Nat)
    ∧ hasEdge (emptyGraph : BGraph Nat) 0 0 = false
    ∧ (dlookup (buildQubo (addTradeDesire 0 0 (emptyGraph : BGraph Nat))) (0, 0)
        = some (- (incidentWeightSum (emptyGraph : BGraph Nat) 0 + 1))
      ∧ ((buildQubo (addTradeDesire 0 0 (emptyGraph : BGraph Nat))).filter
          (fun q => decide (q.1 = (0, 0)))).length = 1) :=
  ⟨by decide, by decide,
    @self_loop_diag_only Nat _ emptyGraph 0 (by decide) (by decide)⟩

/-- C10: Zero-sum invariant: for every well-formed self-loop-free graph, the
sum of all coefficients of the QUBO returned by `build_qubo` is zero — the
diagonal entries sum to -2 times the total edge weight while the
off-diagonal entries sum to +2 times the total edge weight. -/
theorem qubo_coeff_sum_zero {g : BGraph α} (h : WF g) (hsl : selfLoopFree g) :
    (dvals (buildQubo g)).sum = 0 :=
  sum_dvals_buildQubo_zero h hsl

theorem qubo_coeff_sum_zero_check :
    WF gPair ∧ selfLoopFree gPair ∧ (dvals (buildQubo gPair)).sum = 0 :=
  ⟨by decide, by decide, @qubo_coeff_sum_zero Nat _ gPair (by decide) (by decide)⟩

end QBarter
